import Mathlib

/-!
Verification of the mesh-processing engine of the cpp-opengl-viewport
repository (mesh.h / mesh.cpp with subdivision).  Floating point values are
idealised as exact rationals for positions and normals; lengths of vectors
(which involve a square root) are idealised as reals.  The C++ `size_t` is
modelled as a natural number reduced modulo 2 ^ 64.  Vector indexing, which
in C++ is an unchecked access, is modelled by Option-valued lookups, so an
out-of-bounds access surfaces as `none`.
-/

namespace Viewer

/-- Embedding of glm::vec3 with exact rational components. -/
structure Vec3 where
  x : ℚ
  y : ℚ
  z : ℚ
  deriving DecidableEq

instance : Add Vec3 :=
  ⟨fun a b => ⟨a.x + b.x, a.y + b.y, a.z + b.z⟩⟩

instance : Sub Vec3 :=
  ⟨fun a b => ⟨a.x - b.x, a.y - b.y, a.z - b.z⟩⟩

instance : Zero Vec3 :=
  ⟨⟨0, 0, 0⟩⟩

instance : SMul ℚ Vec3 :=
  ⟨fun q v => ⟨q * v.x, q * v.y, q * v.z⟩⟩

/-- Embedding of glm::cross. -/
def cross (a b : Vec3) : Vec3 :=
  ⟨a.y * b.z - a.z * b.y, a.z * b.x - a.x * b.z, a.x * b.y - a.y * b.x⟩

/-- Embedding of glm::dot. -/
def dot (a b : Vec3) : ℚ :=
  a.x * b.x + a.y * b.y + a.z * b.z

/-- Embedding of struct Vertex (mesh.h): a position and a normal accumulator. -/
structure Vertex where
  position : Vec3
  normal : Vec3
  deriving DecidableEq

/-- Embedding of struct Triangle (mesh.h): a view of three vertices.
The C++ struct holds pointers into the vertex vector; the embedding holds the
vertex values, and mutation through the pointers is modelled by explicit
index updates on the vertex list. -/
structure Triangle where
  vA : Vertex
  vB : Vertex
  vC : Vertex
  deriving DecidableEq

/-- Embedding of Triangle::GetNormal (mesh.h lines 30-35):
e1 = vA.position - vB.position, e2 = vC.position - vB.position,
result cross(e1, e2), unnormalized. -/
def Triangle.GetNormal (t : Triangle) : Vec3 :=
  cross (t.vA.position - t.vB.position) (t.vC.position - t.vB.position)

/-- Embedding of Triangle::GetTriangle (mesh.h lines 25-28).  The C++ code
indexes vertices[indices[i]] etc. without any bounds check; the embedding
surfaces an out-of-bounds access as `none`. -/
def Triangle.GetTriangle? (vertices : List Vertex) (indices : List ℕ) (i : ℕ) :
    Option Triangle := do
  let ia ← indices[i]?
  let ib ← indices[i + 1]?
  let ic ← indices[i + 2]?
  let va ← vertices[ia]?
  let vb ← vertices[ib]?
  let vc ← vertices[ic]?
  pure ⟨va, vb, vc⟩

/-- Embedding of class Mesh (mesh.h): a vertex sequence and an index
sequence.  Indices are modelled as naturals (valid C++ ints are nonnegative). -/
structure Mesh where
  vertices : List Vertex
  indices : List ℕ
  deriving DecidableEq

/-- Embedding of HashCombine (mesh.cpp lines 171-175):
m = max(v1, v2); m * (m + 1) + min(v1, v2), computed in size_t
(64-bit unsigned) arithmetic, hence reduced modulo 2 ^ 64. -/
def HashCombine (v1 v2 : ℕ) : ℕ :=
  let m := max v1 v2
  (m * (m + 1) + min v1 v2) % 2 ^ 64

/-- Adding a vector to the normal accumulator of vertex i (the effect of
`triangle.vX->normal += normal` through the pointer into the vertex vector). -/
def addToNormal (vs : List Vertex) (i : ℕ) (n : Vec3) : List Vertex :=
  match vs[i]? with
  | some v => vs.set i ⟨v.position, v.normal + n⟩
  | none => vs

/-- Setting the normal accumulator of vertex i to zero (the effect of
`triangle.vX->normal = glm::vec3(0)`). -/
def zeroNormal (vs : List Vertex) (i : ℕ) : List Vertex :=
  match vs[i]? with
  | some v => vs.set i ⟨v.position, 0⟩
  | none => vs

/-- Loop body recursion of Mesh::CalculateNormals (mesh.cpp lines 99-111):
for each consecutive index triple, add the triangle normal to the three
vertex normal accumulators.  A trailing partial triple is an out-of-bounds
read in C++ and yields `none`. -/
def calcNormalsGo (vs : List Vertex) : List ℕ → Option (List Vertex)
  | [] => some vs
  | i0 :: i1 :: i2 :: rest => do
      let va ← vs[i0]?
      let vb ← vs[i1]?
      let vc ← vs[i2]?
      let n := Triangle.GetNormal ⟨va, vb, vc⟩
      let vs1 := addToNormal (addToNormal (addToNormal vs i0 n) i1 n) i2 n
      calcNormalsGo vs1 rest
  | _ => none

/-- Embedding of Mesh::CalculateNormals (mesh.cpp lines 99-111). -/
def CalculateNormals (vertices : List Vertex) (indices : List ℕ) :
    Option (List Vertex) :=
  calcNormalsGo vertices indices

/-- State threaded through the Mesh::Subdivide loop: the growing vertex
vector, the unordered_map from edge hash to midpoint vertex index (as an
association list), and the emitted new index vector. -/
structure SubSt where
  vertices : List Vertex
  map : List (ℕ × ℕ)
  newIndices : List ℕ
  deriving DecidableEq

/-- Lookup in the association list modelling std::unordered_map. -/
def lookupA (m : List (ℕ × ℕ)) (k : ℕ) : Option ℕ :=
  (m.find? (fun p => p.fst == k)).map Prod.snd

/-- Insertion into the association list modelling std::unordered_map
(only ever called on a key that is not present). -/
def insertA (m : List (ℕ × ℕ)) (k v : ℕ) : List (ℕ × ℕ) :=
  (k, v) :: m

/-- One look-up-or-create step of Mesh::Subdivide (mesh.cpp lines 209-216,
repeated for each edge): if the edge hash is unmapped, the midpoint vertex
index is the current vertex count, the pair is inserted and the midpoint
vertex is appended with zero normal; otherwise the mapped index is reused. -/
def getOrCreateMidpoint (st : SubSt) (h : ℕ) (pos : Vec3) : ℕ × SubSt :=
  match lookupA st.map h with
  | some idx => (idx, st)
  | none =>
      let idx := st.vertices.length
      (idx, ⟨st.vertices ++ [⟨pos, 0⟩], insertA st.map h idx, st.newIndices⟩)

/-- One iteration of the Mesh::Subdivide loop (mesh.cpp lines 189-251) on
the source triple (i0, i1, i2) naming the vertices va, vb, vc: compute the
three edge midpoints, reset the three source vertex normals, look up or
create the three midpoint vertices keyed by the edge hashes, and emit the
four child triangles in counter-clockwise order. -/
def subdivideTriStep (st : SubSt) (i0 i1 i2 : ℕ) (va vb vc : Vertex) :
    SubSt :=
  let midpointAC := va.position + (1 / 2 : ℚ) • (vc.position - va.position)
  let midpointAB := va.position + (1 / 2 : ℚ) • (vb.position - va.position)
  let midpointBC := vb.position + (1 / 2 : ℚ) • (vc.position - vb.position)
  let vs1 := zeroNormal (zeroNormal (zeroNormal st.vertices i0) i1) i2
  let edgeHashAC := HashCombine i0 i2
  let edgeHashAB := HashCombine i0 i1
  let edgeHashBC := HashCombine i1 i2
  let st1 : SubSt := ⟨vs1, st.map, st.newIndices⟩
  let r2 := getOrCreateMidpoint st1 edgeHashAC midpointAC
  let midpointACIdx := r2.1
  let st2 := r2.2
  let r3 := getOrCreateMidpoint st2 edgeHashAB midpointAB
  let midpointABIdx := r3.1
  let st3 := r3.2
  let r4 := getOrCreateMidpoint st3 edgeHashBC midpointBC
  let midpointBCIdx := r4.1
  let st4 := r4.2
  let block := [i0, midpointABIdx, midpointACIdx,
                midpointACIdx, midpointABIdx, midpointBCIdx,
                midpointACIdx, midpointBCIdx, i2,
                midpointABIdx, i1, midpointBCIdx]
  ⟨st4.vertices, st4.map, st4.newIndices ++ block⟩

/-- Loop body recursion of Mesh::Subdivide (mesh.cpp lines 187-252): for
each consecutive source index triple, read the triangle from the current
vertex vector and perform the subdivision step. -/
def subdivideGo (st : SubSt) : List ℕ → Option SubSt
  | [] => some st
  | i0 :: i1 :: i2 :: rest => do
      let va ← st.vertices[i0]?
      let vb ← st.vertices[i1]?
      let vc ← st.vertices[i2]?
      subdivideGo (subdivideTriStep st i0 i1 i2 va vb vc) rest
  | _ => none

/-- The state after the Mesh::Subdivide loop, before the final
CalculateNormals call. -/
def subdivideState (m : Mesh) : Option SubSt :=
  subdivideGo ⟨m.vertices, [], []⟩ m.indices

/-- Embedding of Mesh::Subdivide (mesh.cpp lines 177-257): run the loop,
replace the index sequence by the emitted one, and recompute normals. -/
def Subdivide (m : Mesh) : Option Mesh := do
  let st ← subdivideState m
  let vs ← CalculateNormals st.vertices st.newIndices
  pure ⟨vs, st.newIndices⟩

/-- The position of vertex i, when it exists. -/
def posAt? (vs : List Vertex) (i : ℕ) : Option Vec3 :=
  vs[i]?.map Vertex.position

/-- The largest finite single-precision float, FLT_MAX = (2 - 2^-23)*2^127. -/
noncomputable def FLT_MAX : ℝ :=
  2 ^ 128 - 2 ^ 104

/-- Embedding of struct TriangleStatistics (mesh.h / mesh.cpp).  Float values
are idealised as reals. -/
structure TriangleStatistics where
  minArea : ℝ
  maxArea : ℝ
  avgArea : ℝ

/-- Embedding of the TriangleStatistics constructor (mesh.cpp lines 17-20):
minArea = FLT_MAX, maxArea = 0, avgArea = 0. -/
noncomputable def TriangleStatistics.init : TriangleStatistics :=
  ⟨FLT_MAX, 0, 0⟩

/-- Embedding of the batch size formula of Mesh::CalculateStatistics
(mesh.cpp line 124): (i*T + T)/W - (i*T)/W in integer division. -/
def batchSize (T W k : ℕ) : ℕ :=
  (k * T + T) / W - k * T / W

/-- The start of batch k: batch 0 starts at 0 and each batch starts where
the previous one ended (mesh.cpp lines 120, 148). -/
def batchStart (T W : ℕ) : ℕ → ℕ
  | 0 => 0
  | k + 1 => batchStart T W k + batchSize T W k

/-- The area of the triangle at index offset i:
glm::length(triangle.GetNormal()) * 0.5 (mesh.cpp line 135), with the float
length idealised as the real square root. -/
noncomputable def areaAt? (vs : List Vertex) (is : List ℕ) (i : ℕ) :
    Option ℝ :=
  (Triangle.GetTriangle? vs is i).map
    (fun t => Real.sqrt ((dot t.GetNormal t.GetNormal : ℚ) : ℝ) * (1 / 2))

/-- One iteration of the per-batch statistics loop (mesh.cpp lines 137-141):
the minimum is updated only by a strictly smaller nonzero area, the maximum
by a strictly larger area, and the average accumulates area / triangleCount. -/
noncomputable def statStep (triangleCount : ℕ) (stats : TriangleStatistics)
    (area : ℝ) : TriangleStatistics :=
  ⟨if stats.minArea > area ∧ area ≠ 0 then area else stats.minArea,
   if stats.maxArea < area then area else stats.maxArea,
   stats.avgArea + area / (triangleCount : ℝ)⟩

/-- The per-batch statistics loop (mesh.cpp lines 130-144): starting from a
fresh TriangleStatistics, process `count` triangles beginning at index
offset i, stepping by 3. -/
noncomputable def statsBatchGo (vs : List Vertex) (is : List ℕ)
    (triangleCount : ℕ) : ℕ → ℕ → TriangleStatistics →
    Option TriangleStatistics
  | 0, _, stats => some stats
  | count + 1, i, stats => do
      let area ← areaAt? vs is i
      statsBatchGo vs is triangleCount count (i + 3)
        (statStep triangleCount stats area)

/-- The batch spawning loop of Mesh::CalculateStatistics (mesh.cpp lines
120-149): batch k of size batchSize runs the per-batch loop on offsets
[start*3, (start+batchSize)*3), and the next batch starts where it ended.
`n` counts the remaining batches, so k + n = threadCount throughout. -/
noncomputable def batchStatsList (vs : List Vertex) (is : List ℕ)
    (triangleCount threadCount : ℕ) : ℕ → ℕ → ℕ →
    Option (List TriangleStatistics)
  | _, _, 0 => some []
  | k, start, n + 1 => do
      let bs := batchSize triangleCount threadCount k
      let s ← statsBatchGo vs is triangleCount bs (start * 3)
        TriangleStatistics.init
      let rest ← batchStatsList vs is triangleCount threadCount
        (k + 1) (start + bs) n
      pure (s :: rest)

/-- The accumulation step of Mesh::CalculateStatistics (mesh.cpp lines
157-164): sum the averages, keep the smaller minimum and the larger
maximum. -/
noncomputable def combineStats (result current : TriangleStatistics) :
    TriangleStatistics :=
  ⟨if result.minArea > current.minArea then current.minArea
    else result.minArea,
   if result.maxArea < current.maxArea then current.maxArea
    else result.maxArea,
   result.avgArea + current.avgArea⟩

/-- Embedding of Mesh::CalculateStatistics (mesh.cpp lines 113-169):
triangleCount = indices.size() / 3, threadCount = hardware concurrency
clamped to the triangle count, the batches are processed and accumulated
from TriangleStatistics(), and the done flag is set to true afterwards.
The hardware concurrency is a parameter; the deterministic sequential
semantics of the fork-join computation is embedded. -/
noncomputable def CalculateStatistics (m : Mesh) (hardwareConcurrency : ℕ) :
    Option (TriangleStatistics × Bool) := do
  let triangleCount := m.indices.length / 3
  let threadCount :=
    if hardwareConcurrency > triangleCount then triangleCount
    else hardwareConcurrency
  let stats ← batchStatsList m.vertices m.indices triangleCount threadCount
    0 0 threadCount
  pure (stats.foldl combineStats TriangleStatistics.init, true)

/-- Machine epsilon for float, std::numeric_limits of float epsilon = 2^-23
(mesh.cpp line 262). -/
def epsilonF : ℚ :=
  1 / 2 ^ 23

/-- The Moeller-Trumbore determinant dot(edge1, cross(ray_vector, edge2))
(mesh.cpp lines 264-267). -/
def rayDet (ray_vector : Vec3) (t : Triangle) : ℚ :=
  dot (t.vB.position - t.vA.position)
    (cross ray_vector (t.vC.position - t.vA.position))

/-- Embedding of DoesRayIntersectTriangle (mesh.cpp lines 260-294),
Moeller-Trumbore with exact rational arithmetic.  All four rejection tests
are as in the source; the out_intersection_point of the mesh.cpp variant is
dropped in the part_003 variant embedded here. -/
def DoesRayIntersectTriangle (ray_origin ray_vector : Vec3) (t : Triangle) :
    Bool :=
  let edge1 := t.vB.position - t.vA.position
  let edge2 := t.vC.position - t.vA.position
  let ray_cross_e2 := cross ray_vector edge2
  let det := dot edge1 ray_cross_e2
  if det > -epsilonF ∧ det < epsilonF then false
  else
    let inv_det := 1 / det
    let s := ray_origin - t.vA.position
    let u := inv_det * dot s ray_cross_e2
    if u < 0 ∨ u > 1 then false
    else
      let s_cross_e1 := cross s edge1
      let v := inv_det * dot ray_vector s_cross_e1
      if v < 0 ∨ u + v > 1 then false
      else
        let tt := inv_det * dot edge2 s_cross_e1
        if tt > epsilonF then true else false

/-- The counting loop of Mesh::IsPointInside (mesh.cpp lines 300-307):
count the triangles hit by the ray. -/
def intersectCountGo (vs : List Vertex) (rayOrigin rayDirection : Vec3) :
    List ℕ → Option ℕ
  | [] => some 0
  | i0 :: i1 :: i2 :: rest => do
      let va ← vs[i0]?
      let vb ← vs[i1]?
      let vc ← vs[i2]?
      let cnt ← intersectCountGo vs rayOrigin rayDirection rest
      pure (cnt +
        if DoesRayIntersectTriangle rayOrigin rayDirection ⟨va, vb, vc⟩
        then 1 else 0)
  | _ => none

/-- Embedding of Mesh::IsPointInside (mesh.cpp lines 296-310): cast a ray
in direction (1,1,0) and report whether the intersection count is odd. -/
def IsPointInside (m : Mesh) (p : Vec3) : Option Bool :=
  (intersectCountGo m.vertices p ⟨1, 1, 0⟩ m.indices).map
    (fun c => c % 2 == 1)

/-- The list of triangle views named by consecutive index triples. -/
def trianglesOf? (vs : List Vertex) : List ℕ → Option (List Triangle)
  | [] => some []
  | i0 :: i1 :: i2 :: rest => do
      let va ← vs[i0]?
      let vb ← vs[i1]?
      let vc ← vs[i2]?
      let ts ← trianglesOf? vs rest
      pure (⟨va, vb, vc⟩ :: ts)
  | _ => none

/-- Specification-side definition for claim C7, following the words of the
spec: each vertex normal is the sum, over all triangles incident to the
vertex (once per occurrence of its index in the index sequence), of the
unnormalized triangle normals cross(A - B, C - B), computed from the
position sequence. -/
def specIncidentNormalSum (ps : List Vec3) (v : ℕ) : List ℕ → Option Vec3
  | [] => some 0
  | i0 :: i1 :: i2 :: rest => do
      let a ← ps[i0]?
      let b ← ps[i1]?
      let c ← ps[i2]?
      let s ← specIncidentNormalSum ps v rest
      let n := cross (a - b) (c - b)
      pure (s + (if i0 = v then n else 0) + (if i1 = v then n else 0) +
        (if i2 = v then n else 0))
  | _ => none

/-- The normal of vertex i, when it exists. -/
def normalAt? (vs : List Vertex) (i : ℕ) : Option Vec3 :=
  vs[i]?.map Vertex.normal

/-- The list of the unordered edges of the triangle list, each normalized
as (min, max), in the order the subdivision loop hashes them (AC, AB, BC). -/
def edgesOf : List ℕ → List (ℕ × ℕ)
  | i0 :: i1 :: i2 :: rest =>
      (min i0 i2, max i0 i2) :: (min i0 i1, max i0 i1) ::
        (min i1 i2, max i1 i2) :: edgesOf rest
  | _ => []

/-- The midpoint vertex index recorded for the edge between vertex indices
a and b in a subdivision state. -/
def edgeMid (st : SubSt) (a b : ℕ) : Option ℕ :=
  lookupA st.map (HashCombine a b)

end Viewer

namespace Viewer

/-- Claim C3 counterexample: at the explicit triangle A=(0,0,0), B=(1,0,0),
C=(0,1,0), GetNormal does not return (0,0,1) as claimed: the code convention
e1 = A - B, e2 = C - B gives cross(e1, e2) = (0,0,-1). -/
theorem c3_getNormal_counterexample :
    ¬ (Triangle.GetNormal ⟨⟨⟨0, 0, 0⟩, 0⟩, ⟨⟨1, 0, 0⟩, 0⟩, ⟨⟨0, 1, 0⟩, 0⟩⟩ =
      ⟨0, 0, 1⟩) := by
  intro h
  have h2 : Triangle.GetNormal ⟨⟨⟨0, 0, 0⟩, 0⟩, ⟨⟨1, 0, 0⟩, 0⟩, ⟨⟨0, 1, 0⟩, 0⟩⟩ =
      ⟨0, 0, -1⟩ := by with_unfolding_all rfl
  rw [h2] at h
  have h3 := congrArg Vec3.z h
  norm_num at h3

/-- Claim C3 (amended): for the triangle A=(0,0,0), B=(1,0,0), C=(0,1,0),
GetNormal = cross(A - B, C - B) returns the unnormalized face normal
(0,0,-1), and the triangle area, half the length of that normal, is 0.5. -/
theorem c3_getNormal_amended :
    Triangle.GetNormal ⟨⟨⟨0, 0, 0⟩, 0⟩, ⟨⟨1, 0, 0⟩, 0⟩, ⟨⟨0, 1, 0⟩, 0⟩⟩ =
      ⟨0, 0, -1⟩ ∧
    Real.sqrt
      ((dot (Triangle.GetNormal
          ⟨⟨⟨0, 0, 0⟩, 0⟩, ⟨⟨1, 0, 0⟩, 0⟩, ⟨⟨0, 1, 0⟩, 0⟩⟩)
        (Triangle.GetNormal
          ⟨⟨⟨0, 0, 0⟩, 0⟩, ⟨⟨1, 0, 0⟩, 0⟩, ⟨⟨0, 1, 0⟩, 0⟩⟩) : ℚ) : ℝ) *
      (1 / 2) = 1 / 2 := by
  constructor
  · with_unfolding_all rfl
  · have h : (dot (Triangle.GetNormal
        ⟨⟨⟨0, 0, 0⟩, 0⟩, ⟨⟨1, 0, 0⟩, 0⟩, ⟨⟨0, 1, 0⟩, 0⟩⟩)
        (Triangle.GetNormal
        ⟨⟨⟨0, 0, 0⟩, 0⟩, ⟨⟨1, 0, 0⟩, 0⟩, ⟨⟨0, 1, 0⟩, 0⟩⟩) : ℚ) = 1 := by
      with_unfolding_all rfl
    rw [h]
    simp

/-- The batch size is the floor average T / W, plus one on the batches that
absorb the remainder. -/
theorem batchSize_eq (T W k : ℕ) (hW : 0 < W) :
    batchSize T W k =
      T / W + (if W ≤ k * T % W + T % W then 1 else 0) := by
  rw [batchSize, Nat.add_div hW, Nat.add_assoc, Nat.add_sub_cancel_left]

/-- Each batch starts at the floor boundary floor(k*T/W). -/
theorem batchStart_eq (T W : ℕ) : ∀ k, batchStart T W k = k * T / W := by
  intro k
  induction k with
  | zero => simp [batchStart]
  | succ k ih =>
      rw [batchStart, ih, batchSize]
      have h : k * T / W ≤ (k * T + T) / W :=
        Nat.div_le_div_right (Nat.le_add_right _ _)
      rw [Nat.add_sub_cancel' h]
      congr 1
      ring

/-- Every triangle index below T lies in exactly one batch range
[floor(k*T/W), floor((k+1)*T/W)). -/
theorem batch_cover_unique (T W : ℕ) (hW : 0 < W) (t : ℕ) (ht : t < T) :
    ∃! k, k < W ∧ k * T / W ≤ t ∧ t < (k + 1) * T / W := by
  have hP0 : 0 * T / W ≤ t := by simp
  have hPW : ¬ (W * T / W ≤ t) := by
    rw [Nat.mul_div_cancel_left T hW]
    omega
  have hspec : Nat.findGreatest (fun k => k * T / W ≤ t) W * T / W ≤ t :=
    @Nat.findGreatest_spec 0 (fun k => k * T / W ≤ t) _ W (Nat.zero_le W) hP0
  have hle : Nat.findGreatest (fun k => k * T / W ≤ t) W ≤ W :=
    Nat.findGreatest_le W
  have hne : Nat.findGreatest (fun k => k * T / W ≤ t) W ≠ W := by
    intro h
    rw [h] at hspec
    exact hPW hspec
  have hkW : Nat.findGreatest (fun k => k * T / W ≤ t) W < W :=
    Nat.lt_of_le_of_ne hle hne
  have hupper :
      ¬ ((Nat.findGreatest (fun k => k * T / W ≤ t) W + 1) * T / W ≤ t) :=
    @Nat.findGreatest_is_greatest
      (Nat.findGreatest (fun k => k * T / W ≤ t) W + 1)
      (fun k => k * T / W ≤ t) _ W (Nat.lt_succ_self _) hkW
  refine ⟨Nat.findGreatest (fun k => k * T / W ≤ t) W,
    ⟨hkW, hspec, Nat.lt_of_not_le hupper⟩, ?_⟩
  intro y hy
  obtain ⟨hyW, hy1, hy2⟩ := hy
  rcases Nat.lt_trichotomy y (Nat.findGreatest (fun k => k * T / W ≤ t) W)
    with h | h | h
  · exfalso
    have hmono : (y + 1) * T / W ≤
        Nat.findGreatest (fun k => k * T / W ≤ t) W * T / W :=
      Nat.div_le_div_right (Nat.mul_le_mul_right T (by omega))
    exact absurd hy2 (Nat.not_lt.mpr (Nat.le_trans hmono hspec))
  · exact h
  · exfalso
    have hmono : (Nat.findGreatest (fun k => k * T / W ≤ t) W + 1) * T / W ≤
        y * T / W :=
      Nat.div_le_div_right (Nat.mul_le_mul_right T (by omega))
    exact hupper (Nat.le_trans hmono hy1)

/-- Claim C5: for 0 < W <= T, the batches of CalculateStatistics, where
batch k has size floor((k*T + T)/W) - floor(k*T/W) and starts where the
previous batch ended, are exactly the ranges [floor(k*T/W), floor((k+1)*T/W))
for k below W; their union covers [0, T) with no overlap and no gap, and any
two batch sizes differ by at most 1. -/
theorem c5_partition_coverage (T W : ℕ) (hW : 0 < W) (_hWT : W ≤ T) :
    (∀ k, batchStart T W k = k * T / W) ∧
    (∀ t, t < T → ∃! k, k < W ∧ k * T / W ≤ t ∧ t < (k + 1) * T / W) ∧
    (∀ j k, j < W → k < W → batchSize T W j ≤ batchSize T W k + 1) := by
  refine ⟨batchStart_eq T W, fun t ht => batch_cover_unique T W hW t ht,
    fun j k hj hk => ?_⟩
  rw [batchSize_eq T W j hW, batchSize_eq T W k hW]
  split_ifs <;> omega

/-- Claim C5 witness: the instantiation at T = 5, W = 3. -/
theorem c5_witness :
    ((0 : ℕ) < 3 ∧ 3 ≤ 5) ∧
    ((∀ k, batchStart 5 3 k = k * 5 / 3) ∧
     (∀ t, t < 5 → ∃! k, k < 3 ∧ k * 5 / 3 ≤ t ∧ t < (k + 1) * 5 / 3) ∧
     (∀ j k, j < 3 → k < 3 → batchSize 5 3 j ≤ batchSize 5 3 k + 1)) :=
  ⟨⟨by decide, by decide⟩, c5_partition_coverage 5 3 (by decide) (by decide)⟩

/-- The intersection-counting loop counts exactly the triangles for which
DoesRayIntersectTriangle returns true. -/
theorem intersectCountGo_eq_countP (vs : List Vertex) (p d : Vec3)
    (is : List ℕ) :
    intersectCountGo vs p d is =
      (trianglesOf? vs is).map
        (fun ts => ts.countP (fun t => DoesRayIntersectTriangle p d t)) := by
  induction is using intersectCountGo.induct vs p d with
  | case1 => rfl
  | case2 i0 i1 i2 rest ih =>
      cases h0 : vs[i0]? with
      | none => simp [intersectCountGo, trianglesOf?, h0]
      | some va =>
        cases h1 : vs[i1]? with
        | none => simp [intersectCountGo, trianglesOf?, h0, h1]
        | some vb =>
          cases h2 : vs[i2]? with
          | none => simp [intersectCountGo, trianglesOf?, h0, h1, h2]
          | some vc =>
            cases hts : trianglesOf? vs rest with
            | none =>
                simp [intersectCountGo, trianglesOf?, h0, h1, h2, hts, ih]
            | some ts =>
                simp [intersectCountGo, trianglesOf?, h0, h1, h2, hts, ih,
                  List.countP_cons]
  | case3 l hnil hcons =>
      cases l with
      | nil => exact absurd rfl hnil
      | cons a t =>
        cases t with
        | nil => rfl
        | cons b t2 =>
          cases t2 with
          | nil => rfl
          | cons c t3 => exact absurd rfl (hcons a b c t3)

/-- Claim C6: IsPointInside returns true exactly when the number of mesh
triangles hit by the ray from P in direction (1,1,0) according to
DoesRayIntersectTriangle is odd; and DoesRayIntersectTriangle returns false
(no intersection, not an error) whenever the absolute value of the
Moeller-Trumbore determinant is below the float machine epsilon. -/
theorem c6_parity_and_parallel :
    (∀ (m : Mesh) (p : Vec3) (ts : List Triangle) (b : Bool),
      trianglesOf? m.vertices m.indices = some ts →
      IsPointInside m p = some b →
      (b = true ↔
        Odd (ts.countP (fun t => DoesRayIntersectTriangle p ⟨1, 1, 0⟩ t)))) ∧
    (∀ (ray_origin ray_vector : Vec3) (t : Triangle),
      |rayDet ray_vector t| < epsilonF →
      DoesRayIntersectTriangle ray_origin ray_vector t = false) := by
  constructor
  · intro m p ts b hts hb
    rw [IsPointInside, intersectCountGo_eq_countP, hts] at hb
    simp only [Option.map_some', Option.some_inj] at hb
    subst hb
    rw [Nat.odd_iff]
    constructor
    · intro h
      exact of_decide_eq_true h
    · intro h
      exact decide_eq_true h
  · intro o d t h
    rw [abs_lt] at h
    rw [DoesRayIntersectTriangle, rayDet] at *
    rw [if_pos]
    exact ⟨by linarith [h.1], h.2⟩

/-- Claim C6 witness: a concrete coplanar configuration.  For the single
triangle (0,0,0), (1,0,0), (0,1,0) and query point (0,0,0), IsPointInside
returns false and the hit count 0 is even; and for that triangle the ray
direction (1,1,0) is in the triangle plane, so the determinant is 0 and the
intersection test returns false. -/
theorem c6_witness :
    (false = true ↔
      Odd (List.countP
        (fun t => DoesRayIntersectTriangle ⟨0, 0, 0⟩ ⟨1, 1, 0⟩ t)
        [⟨⟨⟨0, 0, 0⟩, 0⟩, ⟨⟨1, 0, 0⟩, 0⟩, ⟨⟨0, 1, 0⟩, 0⟩⟩])) ∧
    DoesRayIntersectTriangle ⟨5, 5, 5⟩ ⟨1, 1, 0⟩
      ⟨⟨⟨0, 0, 0⟩, 0⟩, ⟨⟨1, 0, 0⟩, 0⟩, ⟨⟨0, 1, 0⟩, 0⟩⟩ = false := by
  constructor
  · exact c6_parity_and_parallel.1
      ⟨[⟨⟨0, 0, 0⟩, 0⟩, ⟨⟨1, 0, 0⟩, 0⟩, ⟨⟨0, 1, 0⟩, 0⟩], [0, 1, 2]⟩
      ⟨0, 0, 0⟩
      [⟨⟨⟨0, 0, 0⟩, 0⟩, ⟨⟨1, 0, 0⟩, 0⟩, ⟨⟨0, 1, 0⟩, 0⟩⟩] false
      (by with_unfolding_all rfl) (by with_unfolding_all rfl)
  · refine c6_parity_and_parallel.2 ⟨5, 5, 5⟩ ⟨1, 1, 0⟩
      ⟨⟨⟨0, 0, 0⟩, 0⟩, ⟨⟨1, 0, 0⟩, 0⟩, ⟨⟨0, 1, 0⟩, 0⟩⟩ ?_
    have h : rayDet ⟨1, 1, 0⟩
        ⟨⟨⟨0, 0, 0⟩, 0⟩, ⟨⟨1, 0, 0⟩, 0⟩, ⟨⟨0, 1, 0⟩, 0⟩⟩ = 0 := by
      with_unfolding_all rfl
    rw [h]
    rw [epsilonF]
    norm_num

/-- Claim C2 counterexample: HashCombine computed in size_t (mod 2 ^ 64)
arithmetic is not injective over unordered pairs of arbitrary nonnegative
integers: the distinct unordered pairs (0, 2^63) and
(2891526308, 3037000499) collide. -/
theorem c2_hashCombine_counterexample :
    HashCombine 0 9223372036854775808 = HashCombine 2891526308 3037000499 ∧
    (0 : ℕ) ≠ 2891526308 ∧ (0 : ℕ) ≠ 3037000499 := by
  refine ⟨?_, by decide, by decide⟩
  decide

/-- addToNormal preserves the length of the vertex list. -/
theorem addToNormal_length (vs : List Vertex) (i : ℕ) (n : Vec3) :
    (addToNormal vs i n).length = vs.length := by
  unfold addToNormal
  cases h : vs[i]? <;> simp [h]

/-- addToNormal preserves every vertex position. -/
theorem addToNormal_pos (vs : List Vertex) (i : ℕ) (n : Vec3) (j : ℕ) :
    posAt? (addToNormal vs i n) j = posAt? vs j := by
  unfold addToNormal posAt?
  cases h : vs[i]? with
  | none => rfl
  | some v =>
      have hlt : i < vs.length := by
        by_contra hc
        rw [List.getElem?_eq_none (by omega)] at h
        cases h
      simp only [List.getElem?_set]
      rcases eq_or_ne i j with rfl | hij
      · rw [if_pos rfl, if_pos hlt, h]
        rfl
      · rw [if_neg hij]

/-- zeroNormal preserves the length of the vertex list. -/
theorem zeroNormal_length (vs : List Vertex) (i : ℕ) :
    (zeroNormal vs i).length = vs.length := by
  unfold zeroNormal
  cases h : vs[i]? <;> simp [h]

/-- zeroNormal preserves every vertex position. -/
theorem zeroNormal_pos (vs : List Vertex) (i : ℕ) (j : ℕ) :
    posAt? (zeroNormal vs i) j = posAt? vs j := by
  unfold zeroNormal posAt?
  cases h : vs[i]? with
  | none => rfl
  | some v =>
      have hlt : i < vs.length := by
        by_contra hc
        rw [List.getElem?_eq_none (by omega)] at h
        cases h
      simp only [List.getElem?_set]
      rcases eq_or_ne i j with rfl | hij
      · rw [if_pos rfl, if_pos hlt, h]
        rfl
      · rw [if_neg hij]

/-- getOrCreateMidpoint leaves the emitted index list unchanged. -/
theorem getOrCreateMidpoint_newIndices (st : SubSt) (h : ℕ) (p : Vec3) :
    (getOrCreateMidpoint st h p).2.newIndices = st.newIndices := by
  unfold getOrCreateMidpoint
  cases hl : lookupA st.map h <;> simp [hl]

/-- getOrCreateMidpoint never shrinks the vertex list. -/
theorem getOrCreateMidpoint_len_le (st : SubSt) (h : ℕ) (p : Vec3) :
    st.vertices.length ≤ (getOrCreateMidpoint st h p).2.vertices.length := by
  unfold getOrCreateMidpoint
  cases hl : lookupA st.map h <;> simp [hl]

/-- getOrCreateMidpoint preserves the positions of existing vertices. -/
theorem getOrCreateMidpoint_pos (st : SubSt) (h : ℕ) (p : Vec3) (j : ℕ)
    (hj : j < st.vertices.length) :
    posAt? (getOrCreateMidpoint st h p).2.vertices j = posAt? st.vertices j := by
  unfold getOrCreateMidpoint
  cases hl : lookupA st.map h with
  | some idx => simp [hl]
  | none =>
      simp only [hl]
      unfold posAt?
      simp only [List.getElem?_append]
      rw [if_pos hj]

/-- The CalculateNormals loop preserves the vertex count and every vertex
position. -/
theorem calcNormalsGo_preserves (vs : List Vertex) (is : List ℕ) :
    ∀ vs', calcNormalsGo vs is = some vs' →
      vs'.length = vs.length ∧ ∀ j, posAt? vs' j = posAt? vs j := by
  induction vs, is using calcNormalsGo.induct with
  | case1 vs =>
      intro vs' h
      rw [calcNormalsGo] at h
      cases h
      exact ⟨rfl, fun j => rfl⟩
  | case2 vs i0 i1 i2 rest ih =>
      intro vs' h
      rw [calcNormalsGo] at h
      cases h0 : vs[i0]? with
      | none => rw [h0] at h; simp at h
      | some va =>
      cases h1 : vs[i1]? with
      | none => rw [h0, h1] at h; simp at h
      | some vb =>
      cases h2 : vs[i2]? with
      | none => rw [h0, h1, h2] at h; simp at h
      | some vc =>
      rw [h0, h1, h2] at h
      simp only [Option.some_bind] at h
      obtain ⟨hlen, hpos⟩ := ih va vb vc vs' h
      refine ⟨?_, ?_⟩
      · rw [hlen, addToNormal_length, addToNormal_length, addToNormal_length]
      · intro j
        rw [hpos j, addToNormal_pos, addToNormal_pos, addToNormal_pos]
  | case3 l vs hnil hcons =>
      intro vs' h
      cases l with
      | nil => exact absurd rfl hnil
      | cons a t =>
        cases t with
        | nil => simp [calcNormalsGo] at h
        | cons b t2 =>
          cases t2 with
          | nil => simp [calcNormalsGo] at h
          | cons c t3 => exact absurd rfl (hcons a b c t3)

/-- Three chained getOrCreateMidpoint calls leave the emitted index list
unchanged. -/
theorem tripleCreate_newIndices (st : SubSt) (h1 h2 h3 : ℕ)
    (p1 p2 p3 : Vec3) :
    (getOrCreateMidpoint (getOrCreateMidpoint
      (getOrCreateMidpoint st h1 p1).2 h2 p2).2 h3 p3).2.newIndices =
      st.newIndices := by
  rw [getOrCreateMidpoint_newIndices, getOrCreateMidpoint_newIndices,
    getOrCreateMidpoint_newIndices]

/-- Three chained getOrCreateMidpoint calls never shrink the vertex list. -/
theorem tripleCreate_len_le (st : SubSt) (h1 h2 h3 : ℕ) (p1 p2 p3 : Vec3) :
    st.vertices.length ≤ (getOrCreateMidpoint (getOrCreateMidpoint
      (getOrCreateMidpoint st h1 p1).2 h2 p2).2 h3 p3).2.vertices.length :=
  le_trans (getOrCreateMidpoint_len_le _ _ _)
    (le_trans (getOrCreateMidpoint_len_le _ _ _)
      (getOrCreateMidpoint_len_le _ _ _))

/-- Three chained getOrCreateMidpoint calls preserve existing positions. -/
theorem tripleCreate_pos (st : SubSt) (h1 h2 h3 : ℕ) (p1 p2 p3 : Vec3)
    (j : ℕ) (hj : j < st.vertices.length) :
    posAt? (getOrCreateMidpoint (getOrCreateMidpoint
      (getOrCreateMidpoint st h1 p1).2 h2 p2).2 h3 p3).2.vertices j =
      posAt? st.vertices j := by
  have l1 := getOrCreateMidpoint_len_le st h1 p1
  have l2 := getOrCreateMidpoint_len_le (getOrCreateMidpoint st h1 p1).2 h2 p2
  rw [getOrCreateMidpoint_pos _ _ _ _ (lt_of_lt_of_le hj (le_trans l1 l2)),
    getOrCreateMidpoint_pos _ _ _ _ (lt_of_lt_of_le hj l1),
    getOrCreateMidpoint_pos _ _ _ _ hj]

/-- The subdivision step emits exactly 12 further indices. -/
theorem subdivideTriStep_newIndices_len (st : SubSt) (i0 i1 i2 : ℕ)
    (va vb vc : Vertex) :
    (subdivideTriStep st i0 i1 i2 va vb vc).newIndices.length =
      st.newIndices.length + 12 := by
  unfold subdivideTriStep
  dsimp only
  rw [List.length_append, tripleCreate_newIndices]
  simp

/-- The subdivision step never shrinks the vertex list. -/
theorem subdivideTriStep_len_le (st : SubSt) (i0 i1 i2 : ℕ)
    (va vb vc : Vertex) :
    st.vertices.length ≤
      (subdivideTriStep st i0 i1 i2 va vb vc).vertices.length := by
  unfold subdivideTriStep
  dsimp only
  refine le_trans ?_ (tripleCreate_len_le _ _ _ _ _ _ _)
  dsimp only
  rw [zeroNormal_length, zeroNormal_length, zeroNormal_length]

/-- The subdivision step preserves the positions of existing vertices. -/
theorem subdivideTriStep_pos (st : SubSt) (i0 i1 i2 : ℕ) (va vb vc : Vertex)
    (j : ℕ) (hj : j < st.vertices.length) :
    posAt? (subdivideTriStep st i0 i1 i2 va vb vc).vertices j =
      posAt? st.vertices j := by
  unfold subdivideTriStep
  dsimp only
  have hb : j < (SubSt.mk
      (zeroNormal (zeroNormal (zeroNormal st.vertices i0) i1) i2)
      st.map st.newIndices).vertices.length := by
    dsimp only
    rw [zeroNormal_length, zeroNormal_length, zeroNormal_length]
    exact hj
  rw [tripleCreate_pos _ _ _ _ _ _ _ _ hb]
  dsimp only
  rw [zeroNormal_pos, zeroNormal_pos, zeroNormal_pos]

/-- The Subdivide loop emits 4 new indices per consumed source index, only
appends vertices, preserves existing positions, and consumes an index list
whose length is a multiple of 3. -/
theorem subdivideGo_spec (st : SubSt) (is : List ℕ) :
    ∀ st', subdivideGo st is = some st' →
      st'.newIndices.length = st.newIndices.length + 4 * is.length ∧
      st.vertices.length ≤ st'.vertices.length ∧
      (∀ j, j < st.vertices.length →
        posAt? st'.vertices j = posAt? st.vertices j) ∧
      3 ∣ is.length := by
  induction st, is using subdivideGo.induct with
  | case1 st =>
      intro st' h
      rw [subdivideGo] at h
      cases h
      exact ⟨by simp, le_refl _, fun j _ => rfl, ⟨0, rfl⟩⟩
  | case2 st i0 i1 i2 rest ih =>
      intro st' h
      rw [subdivideGo] at h
      cases h0 : st.vertices[i0]? with
      | none => rw [h0] at h; simp at h
      | some va =>
      cases h1 : st.vertices[i1]? with
      | none => rw [h0, h1] at h; simp at h
      | some vb =>
      cases h2 : st.vertices[i2]? with
      | none => rw [h0, h1, h2] at h; simp at h
      | some vc =>
      rw [h0, h1, h2] at h
      have hstep : subdivideGo (subdivideTriStep st i0 i1 i2 va vb vc) rest =
          some st' := h
      obtain ⟨hlen, hvle, hpos, hdvd⟩ := ih va vb vc st' hstep
      rw [subdivideTriStep_newIndices_len] at hlen
      refine ⟨by simp only [List.length_cons]; omega, ?_, ?_, ?_⟩
      · exact le_trans (subdivideTriStep_len_le _ _ _ _ _ _ _) hvle
      · intro j hj
        rw [hpos j (lt_of_lt_of_le hj (subdivideTriStep_len_le _ _ _ _ _ _ _)),
          subdivideTriStep_pos _ _ _ _ _ _ _ j hj]
      · obtain ⟨d, hd⟩ := hdvd
        exact ⟨d + 1, by simp only [List.length_cons]; omega⟩
  | case3 l st hnil hcons =>
      intro st' h
      cases l with
      | nil => exact absurd rfl hnil
      | cons a t =>
        cases t with
        | nil => simp [subdivideGo] at h
        | cons b t2 =>
          cases t2 with
          | nil => simp [subdivideGo] at h
          | cons c t3 => exact absurd rfl (hcons a b c t3)

/-- Claim C1: whenever Subdivide completes on a mesh, it replaces the index
sequence with one describing exactly 4 times the original triangle count
(12 indices emitted per source triple), and the resulting vertex sequence
has at least the original vertex count: vertex positions are preserved at
every original index (vertices are only appended, never removed). -/
theorem c1_subdivide_quadruples (m m' : Mesh) (h : Subdivide m = some m') :
    m'.indices.length = 4 * m.indices.length ∧
    m'.indices.length / 3 = 4 * (m.indices.length / 3) ∧
    m.vertices.length ≤ m'.vertices.length ∧
    (∀ j, j < m.vertices.length →
      posAt? m'.vertices j = posAt? m.vertices j) := by
  rw [Subdivide, subdivideState] at h
  cases hs : subdivideGo ⟨m.vertices, [], []⟩ m.indices with
  | none => rw [hs] at h; simp at h
  | some st' =>
  rw [hs] at h
  have h1 : (CalculateNormals st'.vertices st'.newIndices).bind
      (fun vs => some (⟨vs, st'.newIndices⟩ : Mesh)) = some m' := h
  cases hc : CalculateNormals st'.vertices st'.newIndices with
  | none => rw [hc] at h1; simp at h1
  | some vs =>
  rw [hc] at h1
  have h2 : (⟨vs, st'.newIndices⟩ : Mesh) = m' := Option.some.inj h1
  obtain ⟨hlen, hvle, hpos, hdvd⟩ := subdivideGo_spec _ _ st' hs
  obtain ⟨hclen, hcpos⟩ := calcNormalsGo_preserves _ _ vs hc
  subst h2
  have hlen2 : st'.newIndices.length = 4 * m.indices.length := by
    simpa using hlen
  refine ⟨hlen2, ?_, ?_, ?_⟩
  · obtain ⟨d, hd⟩ := hdvd
    show st'.newIndices.length / 3 = 4 * (m.indices.length / 3)
    omega
  · show m.vertices.length ≤ vs.length
    rw [hclen]
    exact hvle
  · intro j hj
    show posAt? vs j = posAt? m.vertices j
    rw [hcpos j, hpos j hj]

/-- Claim C1 witness: subdividing the single unit triangle yields 12
indices (4 triangles) and 6 vertices, extending the original 3. -/
theorem c1_witness :
    Subdivide
      (Mesh.mk
        [⟨⟨0, 0, 0⟩, ⟨0, 0, 0⟩⟩, ⟨⟨1, 0, 0⟩, ⟨0, 0, 0⟩⟩,
         ⟨⟨0, 1, 0⟩, ⟨0, 0, 0⟩⟩]
        [0, 1, 2]) =
      some (Mesh.mk
        [⟨⟨0, 0, 0⟩, ⟨0, 0, -(1 / 4)⟩⟩, ⟨⟨1, 0, 0⟩, ⟨0, 0, -(1 / 4)⟩⟩,
         ⟨⟨0, 1, 0⟩, ⟨0, 0, -(1 / 4)⟩⟩, ⟨⟨0, 1 / 2, 0⟩, ⟨0, 0, -(3 / 4)⟩⟩,
         ⟨⟨1 / 2, 0, 0⟩, ⟨0, 0, -(3 / 4)⟩⟩,
         ⟨⟨1 / 2, 1 / 2, 0⟩, ⟨0, 0, -(3 / 4)⟩⟩]
        [0, 4, 3, 3, 4, 5, 3, 5, 2, 4, 1, 5]) ∧
    ((Mesh.mk
        [⟨⟨0, 0, 0⟩, ⟨0, 0, -(1 / 4)⟩⟩, ⟨⟨1, 0, 0⟩, ⟨0, 0, -(1 / 4)⟩⟩,
         ⟨⟨0, 1, 0⟩, ⟨0, 0, -(1 / 4)⟩⟩, ⟨⟨0, 1 / 2, 0⟩, ⟨0, 0, -(3 / 4)⟩⟩,
         ⟨⟨1 / 2, 0, 0⟩, ⟨0, 0, -(3 / 4)⟩⟩,
         ⟨⟨1 / 2, 1 / 2, 0⟩, ⟨0, 0, -(3 / 4)⟩⟩]
        [0, 4, 3, 3, 4, 5, 3, 5, 2, 4, 1, 5]).indices.length =
      4 * (Mesh.mk
        [⟨⟨0, 0, 0⟩, ⟨0, 0, 0⟩⟩, ⟨⟨1, 0, 0⟩, ⟨0, 0, 0⟩⟩,
         ⟨⟨0, 1, 0⟩, ⟨0, 0, 0⟩⟩]
        [0, 1, 2]).indices.length) := by
  have hs : Subdivide
      (Mesh.mk
        [⟨⟨0, 0, 0⟩, ⟨0, 0, 0⟩⟩, ⟨⟨1, 0, 0⟩, ⟨0, 0, 0⟩⟩,
         ⟨⟨0, 1, 0⟩, ⟨0, 0, 0⟩⟩]
        [0, 1, 2]) =
      some (Mesh.mk
        [⟨⟨0, 0, 0⟩, ⟨0, 0, -(1 / 4)⟩⟩, ⟨⟨1, 0, 0⟩, ⟨0, 0, -(1 / 4)⟩⟩,
         ⟨⟨0, 1, 0⟩, ⟨0, 0, -(1 / 4)⟩⟩, ⟨⟨0, 1 / 2, 0⟩, ⟨0, 0, -(3 / 4)⟩⟩,
         ⟨⟨1 / 2, 0, 0⟩, ⟨0, 0, -(3 / 4)⟩⟩,
         ⟨⟨1 / 2, 1 / 2, 0⟩, ⟨0, 0, -(3 / 4)⟩⟩]
        [0, 4, 3, 3, 4, 5, 3, 5, 2, 4, 1, 5]) := by
    with_unfolding_all rfl
  exact ⟨hs, (c1_subdivide_quadruples _ _ hs).1⟩

/-- A successful lookup names a pair of the association list. -/
theorem lookupA_mem (m : List (ℕ × ℕ)) (k v : ℕ)
    (h : lookupA m k = some v) : (k, v) ∈ m := by
  unfold lookupA at h
  cases hf : m.find? (fun p => p.fst == k) with
  | none => rw [hf] at h; cases h
  | some q =>
      rw [hf] at h
      have hq1 := List.find?_some hf
      have hq2 : q ∈ m := List.mem_of_find?_eq_some hf
      have hk : q.fst = k := by simpa using hq1
      have hv : q.snd = v := by simpa using h
      have : q = (k, v) := by
        cases q
        simp only at hk hv
        rw [hk, hv]
      rwa [this] at hq2

/-- getOrCreateMidpoint returns an index below the new vertex count, and
preserves the invariant that every mapped index is below the vertex count. -/
theorem getOrCreateMidpoint_valid (st : SubSt) (h : ℕ) (p : Vec3)
    (hm : ∀ q ∈ st.map, q.2 < st.vertices.length) :
    (getOrCreateMidpoint st h p).1 <
      (getOrCreateMidpoint st h p).2.vertices.length ∧
    (∀ q ∈ (getOrCreateMidpoint st h p).2.map,
      q.2 < (getOrCreateMidpoint st h p).2.vertices.length) := by
  unfold getOrCreateMidpoint
  cases hl : lookupA st.map h with
  | some idx =>
      simp only
      exact ⟨hm _ (lookupA_mem _ _ _ hl), hm⟩
  | none =>
      simp only
      constructor
      · simp
      · intro q hq
        simp only [insertA, List.mem_cons] at hq
        rcases hq with rfl | hq
        · simp
        · have := hm q hq
          simp only [List.length_append, List.length_cons, List.length_nil]
          omega

/-- Validity facts for three chained getOrCreateMidpoint calls: the map
invariant is preserved and each of the three returned midpoint indices is
below the final vertex count. -/
theorem tripleCreate_valid (st : SubSt) (h1 h2 h3 : ℕ) (p1 p2 p3 : Vec3)
    (hm : ∀ q ∈ st.map, q.2 < st.vertices.length) :
    (∀ q ∈ (getOrCreateMidpoint (getOrCreateMidpoint
        (getOrCreateMidpoint st h1 p1).2 h2 p2).2 h3 p3).2.map,
      q.2 < (getOrCreateMidpoint (getOrCreateMidpoint
        (getOrCreateMidpoint st h1 p1).2 h2 p2).2 h3 p3).2.vertices.length) ∧
    (getOrCreateMidpoint st h1 p1).1 <
      (getOrCreateMidpoint (getOrCreateMidpoint
        (getOrCreateMidpoint st h1 p1).2 h2 p2).2 h3 p3).2.vertices.length ∧
    (getOrCreateMidpoint (getOrCreateMidpoint st h1 p1).2 h2 p2).1 <
      (getOrCreateMidpoint (getOrCreateMidpoint
        (getOrCreateMidpoint st h1 p1).2 h2 p2).2 h3 p3).2.vertices.length ∧
    (getOrCreateMidpoint (getOrCreateMidpoint
        (getOrCreateMidpoint st h1 p1).2 h2 p2).2 h3 p3).1 <
      (getOrCreateMidpoint (getOrCreateMidpoint
        (getOrCreateMidpoint st h1 p1).2 h2 p2).2 h3 p3).2.vertices.length := by
  obtain ⟨g1i, g1m⟩ := getOrCreateMidpoint_valid st h1 p1 hm
  obtain ⟨g2i, g2m⟩ :=
    getOrCreateMidpoint_valid (getOrCreateMidpoint st h1 p1).2 h2 p2 g1m
  obtain ⟨g3i, g3m⟩ :=
    getOrCreateMidpoint_valid (getOrCreateMidpoint
      (getOrCreateMidpoint st h1 p1).2 h2 p2).2 h3 p3 g2m
  have l2 := getOrCreateMidpoint_len_le
    (getOrCreateMidpoint st h1 p1).2 h2 p2
  have l3 := getOrCreateMidpoint_len_le
    (getOrCreateMidpoint (getOrCreateMidpoint st h1 p1).2 h2 p2).2 h3 p3
  exact ⟨g3m, lt_of_lt_of_le g1i (le_trans l2 l3), lt_of_lt_of_le g2i l3,
    g3i⟩

/-- The subdivision step keeps every emitted index below the vertex count
and preserves the map invariant. -/
theorem subdivideTriStep_valid (st : SubSt) (i0 i1 i2 : ℕ)
    (va vb vc : Vertex)
    (hm : ∀ q ∈ st.map, q.2 < st.vertices.length)
    (hni : ∀ x ∈ st.newIndices, x < st.vertices.length)
    (h0 : i0 < st.vertices.length) (h1 : i1 < st.vertices.length)
    (h2 : i2 < st.vertices.length) :
    (∀ x ∈ (subdivideTriStep st i0 i1 i2 va vb vc).newIndices,
      x < (subdivideTriStep st i0 i1 i2 va vb vc).vertices.length) ∧
    (∀ q ∈ (subdivideTriStep st i0 i1 i2 va vb vc).map,
      q.2 < (subdivideTriStep st i0 i1 i2 va vb vc).vertices.length) := by
  unfold subdivideTriStep
  dsimp only
  have hm1 : ∀ q ∈ (SubSt.mk
      (zeroNormal (zeroNormal (zeroNormal st.vertices i0) i1) i2)
      st.map st.newIndices).map,
      q.2 < (SubSt.mk
      (zeroNormal (zeroNormal (zeroNormal st.vertices i0) i1) i2)
      st.map st.newIndices).vertices.length := by
    dsimp only
    rw [zeroNormal_length, zeroNormal_length, zeroNormal_length]
    exact hm
  obtain ⟨tm, t1, t2, t3⟩ := tripleCreate_valid
    (SubSt.mk (zeroNormal (zeroNormal (zeroNormal st.vertices i0) i1) i2)
      st.map st.newIndices)
    (HashCombine i0 i2) (HashCombine i0 i1) (HashCombine i1 i2)
    (va.position + (1 / 2 : ℚ) • (vc.position - va.position))
    (va.position + (1 / 2 : ℚ) • (vb.position - va.position))
    (vb.position + (1 / 2 : ℚ) • (vc.position - vb.position)) hm1
  have hle0 := tripleCreate_len_le
    (SubSt.mk (zeroNormal (zeroNormal (zeroNormal st.vertices i0) i1) i2)
      st.map st.newIndices)
    (HashCombine i0 i2) (HashCombine i0 i1) (HashCombine i1 i2)
    (va.position + (1 / 2 : ℚ) • (vc.position - va.position))
    (va.position + (1 / 2 : ℚ) • (vb.position - va.position))
    (vb.position + (1 / 2 : ℚ) • (vc.position - vb.position))
  have hle : st.vertices.length ≤ (getOrCreateMidpoint (getOrCreateMidpoint
      (getOrCreateMidpoint
        (SubSt.mk (zeroNormal (zeroNormal (zeroNormal st.vertices i0) i1) i2)
          st.map st.newIndices)
        (HashCombine i0 i2)
        (va.position + (1 / 2 : ℚ) • (vc.position - va.position))).2
      (HashCombine i0 i1)
      (va.position + (1 / 2 : ℚ) • (vb.position - va.position))).2
      (HashCombine i1 i2)
      (vb.position + (1 / 2 : ℚ) • (vc.position - vb.position))).2.vertices.length := by
    refine le_trans ?_ hle0
    dsimp only
    rw [zeroNormal_length, zeroNormal_length, zeroNormal_length]
  constructor
  · intro x hx
    rw [tripleCreate_newIndices] at hx
    dsimp only at hx
    simp only [List.mem_append, List.mem_cons, List.not_mem_nil, or_false]
      at hx
    rcases hx with hx | rfl | rfl | rfl | rfl | rfl | rfl | rfl | rfl | rfl |
      rfl | rfl | rfl
    · exact lt_of_lt_of_le (hni x hx) hle
    · exact lt_of_lt_of_le h0 hle
    · exact t2
    · exact t1
    · exact t1
    · exact t2
    · exact t3
    · exact t1
    · exact t3
    · exact lt_of_lt_of_le h2 hle
    · exact t2
    · exact lt_of_lt_of_le h1 hle
    · exact t3
  · exact tm

/-- The Subdivide loop succeeds on valid topology and keeps every emitted
index below the final vertex count. -/
theorem subdivideGo_valid (st : SubSt) (is : List ℕ) :
    ∀ (_his : ∀ i ∈ is, i < st.vertices.length)
      (_hni : ∀ x ∈ st.newIndices, x < st.vertices.length)
      (_hm : ∀ q ∈ st.map, q.2 < st.vertices.length)
      (_h3 : is.length % 3 = 0),
    ∃ st', subdivideGo st is = some st' ∧
      ∀ x ∈ st'.newIndices, x < st'.vertices.length := by
  induction st, is using subdivideGo.induct with
  | case1 st =>
      intro _ hni _ _
      exact ⟨st, by rw [subdivideGo], hni⟩
  | case2 st i0 i1 i2 rest ih =>
      intro his hni hm h3
      have hi0 : i0 < st.vertices.length := his i0 (by simp)
      have hi1 : i1 < st.vertices.length := his i1 (by simp)
      have hi2 : i2 < st.vertices.length := his i2 (by simp)
      have hstep := subdivideTriStep_valid st i0 i1 i2
        (st.vertices[i0]) (st.vertices[i1]) (st.vertices[i2])
        hm hni hi0 hi1 hi2
      have hlenle := subdivideTriStep_len_le st i0 i1 i2
        (st.vertices[i0]) (st.vertices[i1]) (st.vertices[i2])
      obtain ⟨stN, hstN, hvalidN⟩ := ih
        (st.vertices[i0]) (st.vertices[i1]) (st.vertices[i2])
        (fun i hi => lt_of_lt_of_le
          (his i (List.mem_cons_of_mem _ (List.mem_cons_of_mem _
            (List.mem_cons_of_mem _ hi)))) hlenle)
        hstep.1 hstep.2
        (by simp only [List.length_cons] at h3 ⊢; omega)
      refine ⟨stN, ?_, hvalidN⟩
      rw [subdivideGo, List.getElem?_eq_getElem hi0,
        List.getElem?_eq_getElem hi1, List.getElem?_eq_getElem hi2]
      exact hstN
  | case3 l st hnil hcons =>
      intro _ _ _ h3
      cases l with
      | nil => exact absurd rfl hnil
      | cons a t =>
        cases t with
        | nil => simp at h3
        | cons b t2 =>
          cases t2 with
          | nil => simp at h3
          | cons c t3 => exact absurd rfl (hcons a b c t3)

/-- The CalculateNormals loop succeeds on valid topology. -/
theorem calcNormalsGo_total (vs : List Vertex) (is : List ℕ) :
    ∀ (_his : ∀ i ∈ is, i < vs.length) (_h3 : is.length % 3 = 0),
    ∃ vs', calcNormalsGo vs is = some vs' := by
  induction vs, is using calcNormalsGo.induct with
  | case1 vs => intro _ _; exact ⟨vs, by rw [calcNormalsGo]⟩
  | case2 vs i0 i1 i2 rest ih =>
      intro his h3
      have hi0 : i0 < vs.length := his i0 (by simp)
      have hi1 : i1 < vs.length := his i1 (by simp)
      have hi2 : i2 < vs.length := his i2 (by simp)
      obtain ⟨vs', hvs'⟩ := ih (vs[i0]) (vs[i1]) (vs[i2])
        (fun i hi => by
          rw [addToNormal_length, addToNormal_length, addToNormal_length]
          exact his i (List.mem_cons_of_mem _ (List.mem_cons_of_mem _
            (List.mem_cons_of_mem _ hi))))
        (by simp only [List.length_cons] at h3 ⊢; omega)
      refine ⟨vs', ?_⟩
      rw [calcNormalsGo, List.getElem?_eq_getElem hi0,
        List.getElem?_eq_getElem hi1, List.getElem?_eq_getElem hi2]
      exact hvs'
  | case3 l vs hnil hcons =>
      intro _ h3
      cases l with
      | nil => exact absurd rfl hnil
      | cons a t =>
        cases t with
        | nil => simp at h3
        | cons b t2 =>
          cases t2 with
          | nil => simp at h3
          | cons c t3 => exact absurd rfl (hcons a b c t3)

/-- Claim C9: Subdivide preserves the mesh invariants.  For every mesh in
which every index value is below the vertex count and the index count is a
multiple of 3, Subdivide completes and the resulting mesh again has every
index value below the new vertex count and an index count that is a
multiple of 3. -/
theorem c9_subdivide_invariants (m : Mesh)
    (hidx : ∀ i ∈ m.indices, i < m.vertices.length)
    (h3 : m.indices.length % 3 = 0) :
    ∃ m', Subdivide m = some m' ∧
      (∀ i ∈ m'.indices, i < m'.vertices.length) ∧
      m'.indices.length % 3 = 0 := by
  obtain ⟨st', hst, hvalid⟩ := subdivideGo_valid ⟨m.vertices, [], []⟩
    m.indices hidx (by simp) (by simp) h3
  obtain ⟨hlen, _, _, hdvd⟩ := subdivideGo_spec _ _ st' hst
  have h3' : st'.newIndices.length % 3 = 0 := by
    obtain ⟨d, hd⟩ := hdvd
    simp only [List.length_nil] at hlen
    omega
  obtain ⟨vs', hcn⟩ := calcNormalsGo_total st'.vertices st'.newIndices
    hvalid h3'
  refine ⟨⟨vs', st'.newIndices⟩, ?_, ?_, h3'⟩
  · rw [Subdivide, subdivideState, hst]
    show (CalculateNormals st'.vertices st'.newIndices).bind
      (fun vs => some (⟨vs, st'.newIndices⟩ : Mesh)) =
      some (⟨vs', st'.newIndices⟩ : Mesh)
    rw [CalculateNormals, hcn]
    rfl
  · intro i hi
    obtain ⟨hclen, _⟩ := calcNormalsGo_preserves _ _ vs' hcn
    show i < vs'.length
    rw [hclen]
    exact hvalid i hi

/-- Claim C9 witness: the single unit triangle mesh satisfies the
invariants and Subdivide preserves them. -/
theorem c9_witness :
    ((∀ i ∈ ([0, 1, 2] : List ℕ), i < 3) ∧ (3 : ℕ) % 3 = 0) ∧
    (∃ m', Subdivide
      (Mesh.mk
        [⟨⟨0, 0, 0⟩, ⟨0, 0, 0⟩⟩, ⟨⟨1, 0, 0⟩, ⟨0, 0, 0⟩⟩,
         ⟨⟨0, 1, 0⟩, ⟨0, 0, 0⟩⟩]
        [0, 1, 2]) = some m' ∧
      (∀ i ∈ m'.indices, i < m'.vertices.length) ∧
      m'.indices.length % 3 = 0) :=
  ⟨⟨by decide, by decide⟩,
    c9_subdivide_invariants
      (Mesh.mk
        [⟨⟨0, 0, 0⟩, ⟨0, 0, 0⟩⟩, ⟨⟨1, 0, 0⟩, ⟨0, 0, 0⟩⟩,
         ⟨⟨0, 1, 0⟩, ⟨0, 0, 0⟩⟩]
        [0, 1, 2])
      (by decide) (by decide)⟩

/-- Two vectors with equal components are equal. -/
@[ext] theorem Vec3.ext_xyz (a b : Vec3) (hx : a.x = b.x) (hy : a.y = b.y)
    (hz : a.z = b.z) : a = b := by
  cases a
  cases b
  simp only at hx hy hz
  rw [hx, hy, hz]

@[simp] theorem Vec3.add_x (a b : Vec3) : (a + b).x = a.x + b.x := rfl

@[simp] theorem Vec3.add_y (a b : Vec3) : (a + b).y = a.y + b.y := rfl

@[simp] theorem Vec3.add_z (a b : Vec3) : (a + b).z = a.z + b.z := rfl

@[simp] theorem Vec3.zero_x : (0 : Vec3).x = 0 := rfl

@[simp] theorem Vec3.zero_y : (0 : Vec3).y = 0 := rfl

@[simp] theorem Vec3.zero_z : (0 : Vec3).z = 0 := rfl

theorem Vec3.add_zero (a : Vec3) : a + 0 = a := by
  ext <;> simp

theorem Vec3.zero_add (a : Vec3) : 0 + a = a := by
  ext <;> simp

/-- Rearrangement used when commuting a triangle contribution past the
accumulated tail sum. -/
theorem Vec3.add_shuffle (v s d0 d1 d2 : Vec3) :
    v + d0 + d1 + d2 + s = v + (s + d0 + d1 + d2) := by
  ext <;> simp <;> ring

/-- addToNormal adds the vector to the normal of the targeted index and
leaves all other normals unchanged. -/
theorem addToNormal_normalAt (vs : List Vertex) (i : ℕ) (n : Vec3) (j : ℕ) :
    normalAt? (addToNormal vs i n) j =
      (normalAt? vs j).map (fun x => x + (if i = j then n else 0)) := by
  unfold addToNormal normalAt?
  cases h : vs[i]? with
  | none =>
      have hlen : vs.length ≤ i := by
        by_contra hc
        rw [List.getElem?_eq_getElem (by omega)] at h
        cases h
      cases hj : vs[j]? with
      | none => rfl
      | some v =>
          have hji : i ≠ j := by
            intro hij
            subst hij
            rw [hj] at h
            cases h
          simp [hji, Vec3.add_zero]
  | some v =>
      have hlt : i < vs.length := by
        by_contra hc
        rw [List.getElem?_eq_none (by omega)] at h
        cases h
      simp only [List.getElem?_set]
      rcases eq_or_ne i j with rfl | hij
      · rw [if_pos rfl, if_pos hlt, h]
        simp
      · rw [if_neg hij]
        cases hj : vs[j]? with
        | none => rfl
        | some w => simp [hij, Vec3.add_zero]

/-- addToNormal preserves the position sequence. -/
theorem addToNormal_posmap (vs : List Vertex) (i : ℕ) (n : Vec3) :
    (addToNormal vs i n).map Vertex.position = vs.map Vertex.position := by
  refine List.ext_getElem? (fun j => ?_)
  rw [List.getElem?_map, List.getElem?_map]
  exact addToNormal_pos vs i n j

/-- The CalculateNormals loop adds, to every vertex normal, the sum of the
incident triangle normals described by the specification. -/
theorem calcNormalsGo_normals (vs : List Vertex) (is : List ℕ) :
    ∀ vs', calcNormalsGo vs is = some vs' →
      ∀ j, ∃ s, specIncidentNormalSum (vs.map Vertex.position) j is = some s ∧
        normalAt? vs' j = (normalAt? vs j).map (fun x => x + s) := by
  induction vs, is using calcNormalsGo.induct with
  | case1 vs =>
      intro vs' h j
      rw [calcNormalsGo] at h
      cases h
      refine ⟨0, by rw [specIncidentNormalSum], ?_⟩
      cases hj : vs[j]? with
      | none => simp [normalAt?, hj]
      | some v => simp [normalAt?, hj, Vec3.add_zero]
  | case2 vs i0 i1 i2 rest ih =>
      intro vs' h j
      rw [calcNormalsGo] at h
      cases h0 : vs[i0]? with
      | none => rw [h0] at h; simp at h
      | some va =>
      cases h1 : vs[i1]? with
      | none => rw [h0, h1] at h; simp at h
      | some vb =>
      cases h2 : vs[i2]? with
      | none => rw [h0, h1, h2] at h; simp at h
      | some vc =>
      rw [h0, h1, h2] at h
      have hstep : calcNormalsGo
          (addToNormal (addToNormal (addToNormal vs i0
            (Triangle.GetNormal ⟨va, vb, vc⟩)) i1
            (Triangle.GetNormal ⟨va, vb, vc⟩)) i2
            (Triangle.GetNormal ⟨va, vb, vc⟩)) rest = some vs' := h
      obtain ⟨s, hs, hn⟩ := ih va vb vc vs' hstep j
      rw [addToNormal_posmap, addToNormal_posmap, addToNormal_posmap] at hs
      refine ⟨s + (if i0 = j then Triangle.GetNormal ⟨va, vb, vc⟩ else 0) +
        (if i1 = j then Triangle.GetNormal ⟨va, vb, vc⟩ else 0) +
        (if i2 = j then Triangle.GetNormal ⟨va, vb, vc⟩ else 0), ?_, ?_⟩
      · rw [specIncidentNormalSum]
        rw [List.getElem?_map, h0, List.getElem?_map, h1,
          List.getElem?_map, h2]
        simp only [Option.map_some', Option.some_bind, hs]
        rfl
      · rw [hn, addToNormal_normalAt, addToNormal_normalAt,
          addToNormal_normalAt]
        cases hj : normalAt? vs j with
        | none => rfl
        | some v =>
            simp only [Option.map_some']
            rw [Option.some_inj]
            exact Vec3.add_shuffle v s _ _ _
  | case3 l vs hnil hcons =>
      intro vs' h j
      cases l with
      | nil => exact absurd rfl hnil
      | cons a t =>
        cases t with
        | nil => simp [calcNormalsGo] at h
        | cons b t2 =>
          cases t2 with
          | nil => simp [calcNormalsGo] at h
          | cons c t3 => exact absurd rfl (hcons a b c t3)

/-- Claim C7: for every mesh whose vertex normals are all zero before the
call, after CalculateNormals each vertex normal equals the sum, over all
incident triangles (once per occurrence of the vertex index in the index
sequence), of the unnormalized triangle normals; no normalization to unit
length is performed. -/
theorem c7_calculateNormals_sum (vs : List Vertex) (is : List ℕ)
    (vs' : List Vertex) (h0 : ∀ v ∈ vs, v.normal = 0)
    (h : CalculateNormals vs is = some vs') :
    ∀ j, ∃ s, specIncidentNormalSum (vs.map Vertex.position) j is = some s ∧
      normalAt? vs' j = (vs[j]?).map (fun _ => s) := by
  intro j
  obtain ⟨s, hs, hn⟩ := calcNormalsGo_normals vs is vs' h j
  refine ⟨s, hs, ?_⟩
  rw [hn]
  unfold normalAt?
  cases hj : vs[j]? with
  | none => rfl
  | some v =>
      have hv : v.normal = 0 := h0 v (by
        obtain ⟨hlt, rfl⟩ := List.getElem?_eq_some_iff.mp hj
        exact List.getElem_mem hlt)
      simp [hv, Vec3.zero_add]

/-- Claim C7 witness: on the unit triangle mesh with zero normals,
CalculateNormals gives every vertex the single incident triangle normal
(0, 0, -1). -/
theorem c7_witness :
    ((∀ v ∈ [(⟨⟨0, 0, 0⟩, 0⟩ : Vertex), ⟨⟨1, 0, 0⟩, 0⟩, ⟨⟨0, 1, 0⟩, 0⟩],
        v.normal = 0) ∧
      CalculateNormals
        [⟨⟨0, 0, 0⟩, 0⟩, ⟨⟨1, 0, 0⟩, 0⟩, ⟨⟨0, 1, 0⟩, 0⟩] [0, 1, 2] =
        some [⟨⟨0, 0, 0⟩, ⟨0, 0, -1⟩⟩, ⟨⟨1, 0, 0⟩, ⟨0, 0, -1⟩⟩,
          ⟨⟨0, 1, 0⟩, ⟨0, 0, -1⟩⟩]) ∧
    (∀ j, ∃ s, specIncidentNormalSum
        (([(⟨⟨0, 0, 0⟩, 0⟩ : Vertex), ⟨⟨1, 0, 0⟩, 0⟩,
          ⟨⟨0, 1, 0⟩, 0⟩]).map Vertex.position) j [0, 1, 2] = some s ∧
      normalAt? [⟨⟨0, 0, 0⟩, ⟨0, 0, -1⟩⟩, ⟨⟨1, 0, 0⟩, ⟨0, 0, -1⟩⟩,
          ⟨⟨0, 1, 0⟩, ⟨0, 0, -1⟩⟩] j =
        (([(⟨⟨0, 0, 0⟩, 0⟩ : Vertex), ⟨⟨1, 0, 0⟩, 0⟩,
          ⟨⟨0, 1, 0⟩, 0⟩])[j]?).map (fun _ => s)) := by
  have hcn : CalculateNormals
      [(⟨⟨0, 0, 0⟩, 0⟩ : Vertex), ⟨⟨1, 0, 0⟩, 0⟩, ⟨⟨0, 1, 0⟩, 0⟩]
      [0, 1, 2] =
      some [⟨⟨0, 0, 0⟩, ⟨0, 0, -1⟩⟩, ⟨⟨1, 0, 0⟩, ⟨0, 0, -1⟩⟩,
        ⟨⟨0, 1, 0⟩, ⟨0, 0, -1⟩⟩] := by
    with_unfolding_all rfl
  exact ⟨⟨by decide, hcn⟩,
    c7_calculateNormals_sum _ _ _ (by decide) hcn⟩

/-- HashCombine is symmetric in its two arguments. -/
theorem hashCombine_comm (v1 v2 : ℕ) :
    HashCombine v1 v2 = HashCombine v2 v1 := by
  unfold HashCombine
  rw [Nat.max_comm, Nat.min_comm]

/-- HashCombine is invariant under normalizing the pair to (min, max). -/
theorem hashCombine_minmax (v1 v2 : ℕ) :
    HashCombine (min v1 v2) (max v1 v2) = HashCombine v1 v2 := by
  unfold HashCombine
  have h1 : max (min v1 v2) (max v1 v2) = max v1 v2 := by omega
  have h2 : min (min v1 v2) (max v1 v2) = min v1 v2 := by omega
  rw [h1, h2]

/-- The pairing function m*(m+1)+n is strictly monotone in m when n <= m. -/
theorem pairing_mono (m1 n1 m2 : ℕ) (h1 : n1 ≤ m1) (hlt : m1 < m2) :
    m1 * (m1 + 1) + n1 < m2 * (m2 + 1) := by
  have h3 : m1 + 1 ≤ m2 := hlt
  have h4 : m1 * (m1 + 1) + n1 < (m1 + 1) * (m1 + 2) := by nlinarith
  have h5 : (m1 + 1) * (m1 + 2) ≤ m2 * (m2 + 1) :=
    Nat.mul_le_mul h3 (by omega)
  omega

/-- The pairing function m*(m+1)+n is injective on pairs with n <= m. -/
theorem pairing_inj (m1 n1 m2 n2 : ℕ) (h1 : n1 ≤ m1) (h2 : n2 ≤ m2)
    (h : m1 * (m1 + 1) + n1 = m2 * (m2 + 1) + n2) : m1 = m2 ∧ n1 = n2 := by
  have hm : m1 = m2 := by
    rcases Nat.lt_trichotomy m1 m2 with hlt | he | hgt
    · have := pairing_mono m1 n1 m2 h1 hlt
      omega
    · exact he
    · have := pairing_mono m2 n2 m1 h2 hgt
      omega
  subst hm
  exact ⟨rfl, by omega⟩

/-- Below 2^32 the size_t pairing value does not overflow. -/
theorem hashCombine_no_overflow (v1 v2 : ℕ) (h1 : v1 < 2 ^ 32)
    (h2 : v2 < 2 ^ 32) :
    max v1 v2 * (max v1 v2 + 1) + min v1 v2 < 2 ^ 64 := by
  have hm : max v1 v2 ≤ 2 ^ 32 - 1 := by omega
  have hmul : max v1 v2 * (max v1 v2 + 1) ≤ (2 ^ 32 - 1) * 2 ^ 32 :=
    Nat.mul_le_mul hm (by omega)
  have hmin : min v1 v2 ≤ 2 ^ 32 - 1 := by omega
  have : (2 ^ 32 - 1) * 2 ^ 32 + (2 ^ 32 - 1) < 2 ^ 64 := by norm_num
  omega

/-- HashCombine is injective over unordered pairs of integers below 2^32
(in particular over all vertex indices, which fit in a C++ int). -/
theorem hashCombine_inj (v1 v2 w1 w2 : ℕ) (hv1 : v1 < 2 ^ 32)
    (hv2 : v2 < 2 ^ 32) (hw1 : w1 < 2 ^ 32) (hw2 : w2 < 2 ^ 32)
    (h : HashCombine v1 v2 = HashCombine w1 w2) :
    min v1 v2 = min w1 w2 ∧ max v1 v2 = max w1 w2 := by
  unfold HashCombine at h
  rw [Nat.mod_eq_of_lt (hashCombine_no_overflow v1 v2 hv1 hv2),
    Nat.mod_eq_of_lt (hashCombine_no_overflow w1 w2 hw1 hw2)] at h
  have := pairing_inj (max v1 v2) (min v1 v2) (max w1 w2) (min w1 w2)
    (min_le_max) (min_le_max) h
  exact ⟨this.2, this.1⟩

/-- A lookup that succeeds keeps succeeding after any insertion that the
subdivision performs (insertions only happen on absent keys). -/
theorem getOrCreateMidpoint_lookup_mono (st : SubSt) (h : ℕ) (p : Vec3)
    (k v : ℕ) (hk : lookupA st.map k = some v) :
    lookupA (getOrCreateMidpoint st h p).2.map k = some v := by
  unfold getOrCreateMidpoint
  cases hl : lookupA st.map h with
  | some idx => simpa using hk
  | none =>
      simp only
      have hne : h ≠ k := by
        intro he
        rw [he, hk] at hl
        cases hl
      unfold lookupA insertA
      rw [List.find?_cons_of_neg _ (by simpa using hne)]
      exact hk

/-- After getOrCreateMidpoint, the key maps to the returned index. -/
theorem getOrCreateMidpoint_lookup_self (st : SubSt) (h : ℕ) (p : Vec3) :
    lookupA (getOrCreateMidpoint st h p).2.map h =
      some (getOrCreateMidpoint st h p).1 := by
  unfold getOrCreateMidpoint
  cases hl : lookupA st.map h with
  | some idx => simpa using hl
  | none =>
      simp only
      unfold lookupA insertA
      rw [List.find?_cons_of_pos _ (by simp)]
      rfl

/-- A failed lookup means no pair of the list has the key. -/
theorem lookupA_eq_none (m : List (ℕ × ℕ)) (k : ℕ)
    (h : lookupA m k = none) :
    m.find? (fun r => r.fst == k) = none := by
  unfold lookupA at h
  cases hf : m.find? (fun r => r.fst == k) with
  | none => rfl
  | some q => rw [hf] at h; cases h

/-- Map bookkeeping of getOrCreateMidpoint: one vertex is appended per
inserted pair, keys stay distinct, and the only possibly-new key is the
queried hash. -/
theorem getOrCreateMidpoint_map_spec (st : SubSt) (h : ℕ) (p : Vec3) :
    ((getOrCreateMidpoint st h p).2.vertices.length + st.map.length =
      st.vertices.length + (getOrCreateMidpoint st h p).2.map.length) ∧
    ((st.map.map Prod.fst).Nodup →
      ((getOrCreateMidpoint st h p).2.map.map Prod.fst).Nodup) ∧
    (∀ q ∈ (getOrCreateMidpoint st h p).2.map, q ∈ st.map ∨ q.1 = h) := by
  unfold getOrCreateMidpoint
  cases hl : lookupA st.map h with
  | some idx =>
      simp only
      exact ⟨trivial, fun hn => hn, fun q hq => Or.inl hq⟩
  | none =>
      simp only
      refine ⟨by simp only [insertA, List.length_cons, List.length_append,
        List.length_nil]; omega, ?_, ?_⟩
      · intro hn
        simp only [insertA, List.map_cons, List.nodup_cons]
        refine ⟨?_, hn⟩
        intro hmem
        rw [List.mem_map] at hmem
        obtain ⟨q, hq, hq1⟩ := hmem
        have hnone := List.find?_eq_none.mp (lookupA_eq_none _ _ hl) q hq
        simp [hq1] at hnone
      · intro q hq
        simp only [insertA, List.mem_cons] at hq
        rcases hq with rfl | hq
        · exact Or.inr rfl
        · exact Or.inl hq

/-- Map bookkeeping for the three chained getOrCreateMidpoint calls. -/
theorem tripleCreate_map_spec (st : SubSt) (h1 h2 h3 : ℕ)
    (p1 p2 p3 : Vec3) :
    ((getOrCreateMidpoint (getOrCreateMidpoint
        (getOrCreateMidpoint st h1 p1).2 h2 p2).2 h3 p3).2.vertices.length +
        st.map.length =
      st.vertices.length + (getOrCreateMidpoint (getOrCreateMidpoint
        (getOrCreateMidpoint st h1 p1).2 h2 p2).2 h3 p3).2.map.length) ∧
    ((st.map.map Prod.fst).Nodup →
      ((getOrCreateMidpoint (getOrCreateMidpoint
        (getOrCreateMidpoint st h1 p1).2 h2 p2).2 h3 p3).2.map.map
        Prod.fst).Nodup) ∧
    (∀ q ∈ (getOrCreateMidpoint (getOrCreateMidpoint
        (getOrCreateMidpoint st h1 p1).2 h2 p2).2 h3 p3).2.map,
      q ∈ st.map ∨ q.1 = h1 ∨ q.1 = h2 ∨ q.1 = h3) := by
  obtain ⟨e1, n1, k1⟩ := getOrCreateMidpoint_map_spec st h1 p1
  obtain ⟨e2, n2, k2⟩ := getOrCreateMidpoint_map_spec
    (getOrCreateMidpoint st h1 p1).2 h2 p2
  obtain ⟨e3, n3, k3⟩ := getOrCreateMidpoint_map_spec
    (getOrCreateMidpoint (getOrCreateMidpoint st h1 p1).2 h2 p2).2 h3 p3
  refine ⟨by omega, fun hn => n3 (n2 (n1 hn)), ?_⟩
  intro q hq
  rcases k3 q hq with hq2 | rfl
  · rcases k2 q hq2 with hq1 | rfl
    · rcases k1 q hq1 with hq0 | rfl
      · exact Or.inl hq0
      · exact Or.inr (Or.inl rfl)
    · exact Or.inr (Or.inr (Or.inl rfl))
  · exact Or.inr (Or.inr (Or.inr rfl))

/-- Map bookkeeping of the subdivision step. -/
theorem subdivideTriStep_map_spec (st : SubSt) (i0 i1 i2 : ℕ)
    (va vb vc : Vertex) :
    ((subdivideTriStep st i0 i1 i2 va vb vc).vertices.length +
        st.map.length =
      st.vertices.length +
        (subdivideTriStep st i0 i1 i2 va vb vc).map.length) ∧
    ((st.map.map Prod.fst).Nodup →
      (((subdivideTriStep st i0 i1 i2 va vb vc).map.map Prod.fst).Nodup)) ∧
    (∀ q ∈ (subdivideTriStep st i0 i1 i2 va vb vc).map,
      q ∈ st.map ∨ q.1 = HashCombine i0 i2 ∨ q.1 = HashCombine i0 i1 ∨
        q.1 = HashCombine i1 i2) ∧
    (∀ k v, lookupA st.map k = some v →
      lookupA (subdivideTriStep st i0 i1 i2 va vb vc).map k = some v) := by
  unfold subdivideTriStep
  dsimp only
  obtain ⟨he, hn, hk⟩ := tripleCreate_map_spec
    (SubSt.mk (zeroNormal (zeroNormal (zeroNormal st.vertices i0) i1) i2)
      st.map st.newIndices)
    (HashCombine i0 i2) (HashCombine i0 i1) (HashCombine i1 i2)
    (va.position + (1 / 2 : ℚ) • (vc.position - va.position))
    (va.position + (1 / 2 : ℚ) • (vb.position - va.position))
    (vb.position + (1 / 2 : ℚ) • (vc.position - vb.position))
  dsimp only at he
  rw [zeroNormal_length, zeroNormal_length, zeroNormal_length] at he
  refine ⟨he, hn, hk, ?_⟩
  intro k v hkv
  exact getOrCreateMidpoint_lookup_mono _ _ _ _ _
    (getOrCreateMidpoint_lookup_mono _ _ _ _ _
      (getOrCreateMidpoint_lookup_mono _ _ _ _ _ hkv))

/-- Map bookkeeping over the whole Subdivide loop: one vertex appended per
map entry, distinct keys, keys drawn from the edge hashes, and persistence
of existing entries. -/
theorem subdivideGo_map_spec (st : SubSt) (is : List ℕ) :
    ∀ st', subdivideGo st is = some st' →
      (st'.vertices.length + st.map.length =
        st.vertices.length + st'.map.length) ∧
      ((st.map.map Prod.fst).Nodup → (st'.map.map Prod.fst).Nodup) ∧
      (∀ q ∈ st'.map, q ∈ st.map ∨
        q.1 ∈ (edgesOf is).map (fun e => HashCombine e.1 e.2)) ∧
      (∀ k v, lookupA st.map k = some v → lookupA st'.map k = some v) := by
  induction st, is using subdivideGo.induct with
  | case1 st =>
      intro st' h
      rw [subdivideGo] at h
      cases h
      exact ⟨rfl, fun hn => hn, fun q hq => Or.inl hq, fun k v hv => hv⟩
  | case2 st i0 i1 i2 rest ih =>
      intro st' h
      rw [subdivideGo] at h
      cases h0 : st.vertices[i0]? with
      | none => rw [h0] at h; simp at h
      | some va =>
      cases h1 : st.vertices[i1]? with
      | none => rw [h0, h1] at h; simp at h
      | some vb =>
      cases h2 : st.vertices[i2]? with
      | none => rw [h0, h1, h2] at h; simp at h
      | some vc =>
      rw [h0, h1, h2] at h
      have hstep : subdivideGo (subdivideTriStep st i0 i1 i2 va vb vc) rest =
          some st' := h
      obtain ⟨e, n, hk, mono⟩ := ih va vb vc st' hstep
      obtain ⟨se, sn, sk, smono⟩ := subdivideTriStep_map_spec st i0 i1 i2
        va vb vc
      refine ⟨by omega, fun hn => n (sn hn), ?_,
        fun k v hv => mono _ _ (smono _ _ hv)⟩
      intro q hq
      rcases hk q hq with hq1 | hq2
      · rcases sk q hq1 with h3 | h4 | h5 | h6
        · exact Or.inl h3
        · refine Or.inr ?_
          simp only [edgesOf, List.map_cons, List.mem_cons]
          exact Or.inl (by rw [hashCombine_minmax]; exact h4)
        · refine Or.inr ?_
          simp only [edgesOf, List.map_cons, List.mem_cons]
          exact Or.inr (Or.inl (by rw [hashCombine_minmax]; exact h5))
        · refine Or.inr ?_
          simp only [edgesOf, List.map_cons, List.mem_cons]
          exact Or.inr (Or.inr (Or.inl
            (by rw [hashCombine_minmax]; exact h6)))
      · refine Or.inr ?_
        simp only [edgesOf, List.map_cons, List.mem_cons]
        exact Or.inr (Or.inr (Or.inr hq2))
  | case3 l st hnil hcons =>
      intro st' h
      cases l with
      | nil => exact absurd rfl hnil
      | cons a t =>
        cases t with
        | nil => simp [subdivideGo] at h
        | cons b t2 =>
          cases t2 with
          | nil => simp [subdivideGo] at h
          | cons c t3 => exact absurd rfl (hcons a b c t3)

/-- The subdivision step appends the twelve child indices: the source
corners, and for each edge the midpoint index recorded in the map. -/
theorem subdivideTriStep_block (st : SubSt) (i0 i1 i2 : ℕ)
    (va vb vc : Vertex) :
    ∃ mAC mAB mBC : ℕ,
      (subdivideTriStep st i0 i1 i2 va vb vc).newIndices =
        st.newIndices ++ [i0, mAB, mAC, mAC, mAB, mBC, mAC, mBC, i2,
          mAB, i1, mBC] ∧
      lookupA (subdivideTriStep st i0 i1 i2 va vb vc).map
        (HashCombine i0 i2) = some mAC ∧
      lookupA (subdivideTriStep st i0 i1 i2 va vb vc).map
        (HashCombine i0 i1) = some mAB ∧
      lookupA (subdivideTriStep st i0 i1 i2 va vb vc).map
        (HashCombine i1 i2) = some mBC := by
  unfold subdivideTriStep
  dsimp only
  have hAC := getOrCreateMidpoint_lookup_mono (getOrCreateMidpoint (getOrCreateMidpoint (SubSt.mk (zeroNormal (zeroNormal (zeroNormal st.vertices i0) i1) i2)
      st.map st.newIndices)
      (HashCombine i0 i2) (va.position + (1 / 2 : ℚ) • (vc.position - va.position))).2
      (HashCombine i0 i1) (va.position + (1 / 2 : ℚ) • (vb.position - va.position))).2
    (HashCombine i1 i2) (vb.position + (1 / 2 : ℚ) • (vc.position - vb.position)) _ _
    (getOrCreateMidpoint_lookup_mono (getOrCreateMidpoint (SubSt.mk (zeroNormal (zeroNormal (zeroNormal st.vertices i0) i1) i2)
      st.map st.newIndices)
      (HashCombine i0 i2) (va.position + (1 / 2 : ℚ) • (vc.position - va.position))).2
      (HashCombine i0 i1) (va.position + (1 / 2 : ℚ) • (vb.position - va.position)) _ _
      (getOrCreateMidpoint_lookup_self (SubSt.mk (zeroNormal (zeroNormal (zeroNormal st.vertices i0) i1) i2)
      st.map st.newIndices)
        (HashCombine i0 i2) (va.position + (1 / 2 : ℚ) • (vc.position - va.position))))
  have hAB := getOrCreateMidpoint_lookup_mono (getOrCreateMidpoint (getOrCreateMidpoint (SubSt.mk (zeroNormal (zeroNormal (zeroNormal st.vertices i0) i1) i2)
      st.map st.newIndices)
      (HashCombine i0 i2) (va.position + (1 / 2 : ℚ) • (vc.position - va.position))).2
      (HashCombine i0 i1) (va.position + (1 / 2 : ℚ) • (vb.position - va.position))).2
    (HashCombine i1 i2) (vb.position + (1 / 2 : ℚ) • (vc.position - vb.position)) _ _
    (getOrCreateMidpoint_lookup_self (getOrCreateMidpoint (SubSt.mk (zeroNormal (zeroNormal (zeroNormal st.vertices i0) i1) i2)
      st.map st.newIndices)
      (HashCombine i0 i2) (va.position + (1 / 2 : ℚ) • (vc.position - va.position))).2
      (HashCombine i0 i1) (va.position + (1 / 2 : ℚ) • (vb.position - va.position)))
  have hBC := getOrCreateMidpoint_lookup_self (getOrCreateMidpoint (getOrCreateMidpoint (SubSt.mk (zeroNormal (zeroNormal (zeroNormal st.vertices i0) i1) i2)
      st.map st.newIndices)
      (HashCombine i0 i2) (va.position + (1 / 2 : ℚ) • (vc.position - va.position))).2
      (HashCombine i0 i1) (va.position + (1 / 2 : ℚ) • (vb.position - va.position))).2
    (HashCombine i1 i2) (vb.position + (1 / 2 : ℚ) • (vc.position - vb.position))
  exact ⟨_, _, _, by rw [tripleCreate_newIndices], hAC, hAB, hBC⟩

/-- The Subdivide loop only appends to the emitted index list. -/
theorem subdivideGo_newIndices_grows (st : SubSt) (is : List ℕ) :
    ∀ st', subdivideGo st is = some st' →
      ∃ tail, st'.newIndices = st.newIndices ++ tail := by
  induction st, is using subdivideGo.induct with
  | case1 st =>
      intro st' h
      rw [subdivideGo] at h
      cases h
      exact ⟨[], by simp⟩
  | case2 st i0 i1 i2 rest ih =>
      intro st' h
      rw [subdivideGo] at h
      cases h0 : st.vertices[i0]? with
      | none => rw [h0] at h; simp at h
      | some va =>
      cases h1 : st.vertices[i1]? with
      | none => rw [h0, h1] at h; simp at h
      | some vb =>
      cases h2 : st.vertices[i2]? with
      | none => rw [h0, h1, h2] at h; simp at h
      | some vc =>
      rw [h0, h1, h2] at h
      have hstep : subdivideGo (subdivideTriStep st i0 i1 i2 va vb vc) rest =
          some st' := h
      obtain ⟨tail, htail⟩ := ih va vb vc st' hstep
      obtain ⟨mAC, mAB, mBC, hblk, _, _, _⟩ := subdivideTriStep_block st
        i0 i1 i2 va vb vc
      rw [hblk] at htail
      exact ⟨_, by rw [htail, List.append_assoc]⟩
  | case3 l st hnil hcons =>
      intro st' h
      cases l with
      | nil => exact absurd rfl hnil
      | cons a t =>
        cases t with
        | nil => simp [subdivideGo] at h
        | cons b t2 =>
          cases t2 with
          | nil => simp [subdivideGo] at h
          | cons c t3 => exact absurd rfl (hcons a b c t3)

/-- Block characterization of the Subdivide loop: for every source
triangle, the twelve emitted child indices are the source corners together
with the midpoint indices that the final map records for the triangle's
three edges (keyed by their order-independent hashes). -/
theorem subdivideGo_block_char (st : SubSt) (is : List ℕ) :
    ∀ st', subdivideGo st is = some st' →
      ∀ t, 3 * t + 2 < is.length →
        ∃ mAC mAB mBC,
          lookupA st'.map (HashCombine (is.getD (3 * t) 0)
            (is.getD (3 * t + 2) 0)) = some mAC ∧
          lookupA st'.map (HashCombine (is.getD (3 * t) 0)
            (is.getD (3 * t + 1) 0)) = some mAB ∧
          lookupA st'.map (HashCombine (is.getD (3 * t + 1) 0)
            (is.getD (3 * t + 2) 0)) = some mBC ∧
          (st'.newIndices.drop (st.newIndices.length + 12 * t)).take 12 =
            [is.getD (3 * t) 0, mAB, mAC, mAC, mAB, mBC, mAC, mBC,
             is.getD (3 * t + 2) 0, mAB, is.getD (3 * t + 1) 0, mBC] := by
  induction st, is using subdivideGo.induct with
  | case1 st =>
      intro st' h t ht
      simp at ht
  | case2 st i0 i1 i2 rest ih =>
      intro st' h t ht
      rw [subdivideGo] at h
      cases h0 : st.vertices[i0]? with
      | none => rw [h0] at h; simp at h
      | some va =>
      cases h1 : st.vertices[i1]? with
      | none => rw [h0, h1] at h; simp at h
      | some vb =>
      cases h2 : st.vertices[i2]? with
      | none => rw [h0, h1, h2] at h; simp at h
      | some vc =>
      rw [h0, h1, h2] at h
      have hstep : subdivideGo (subdivideTriStep st i0 i1 i2 va vb vc) rest =
          some st' := h
      cases t with
      | zero =>
          obtain ⟨mAC, mAB, mBC, hblk, hAC, hAB, hBC⟩ :=
            subdivideTriStep_block st i0 i1 i2 va vb vc
          obtain ⟨_, _, _, mono⟩ := subdivideGo_map_spec _ _ st' hstep
          obtain ⟨tail, htail⟩ := subdivideGo_newIndices_grows _ _ st' hstep
          rw [hblk] at htail
          refine ⟨mAC, mAB, mBC, ?_, ?_, ?_, ?_⟩
          · show lookupA st'.map (HashCombine i0 i2) = some mAC
            exact mono _ _ hAC
          · show lookupA st'.map (HashCombine i0 i1) = some mAB
            exact mono _ _ hAB
          · show lookupA st'.map (HashCombine i1 i2) = some mBC
            exact mono _ _ hBC
          · show (st'.newIndices.drop (st.newIndices.length + 12 * 0)).take
              12 = [i0, mAB, mAC, mAC, mAB, mBC, mAC, mBC, i2, mAB, i1, mBC]
            rw [htail, List.append_assoc]
            have h12 : st.newIndices.length + 12 * 0 =
                st.newIndices.length := by omega
            rw [h12, List.drop_left]
            have hlen : ([i0, mAB, mAC, mAC, mAB, mBC, mAC, mBC, i2,
                mAB, i1, mBC] : List ℕ).length = 12 := rfl
            rw [← hlen, List.take_left]
      | succ k =>
          have hbound : 3 * k + 2 < rest.length := by
            simp only [List.length_cons] at ht
            omega
          obtain ⟨mAC, mAB, mBC, hl1, hl2, hl3, hblk⟩ :=
            ih va vb vc st' hstep k hbound
          have e0 : 3 * (k + 1) = 3 * k + 1 + 1 + 1 := by ring
          have e1 : 3 * (k + 1) + 1 = 3 * k + 1 + 1 + 1 + 1 := by ring
          have e2 : 3 * (k + 1) + 2 = 3 * k + 2 + 1 + 1 + 1 := by ring
          have g0 : (i0 :: i1 :: i2 :: rest).getD (3 * (k + 1)) 0 =
              rest.getD (3 * k) 0 := by
            rw [e0, List.getD_cons_succ, List.getD_cons_succ,
              List.getD_cons_succ]
          have g1 : (i0 :: i1 :: i2 :: rest).getD (3 * (k + 1) + 1) 0 =
              rest.getD (3 * k + 1) 0 := by
            rw [e1, List.getD_cons_succ, List.getD_cons_succ,
              List.getD_cons_succ]
          have g2 : (i0 :: i1 :: i2 :: rest).getD (3 * (k + 1) + 2) 0 =
              rest.getD (3 * k + 2) 0 := by
            rw [e2, List.getD_cons_succ, List.getD_cons_succ,
              List.getD_cons_succ]
          refine ⟨mAC, mAB, mBC, ?_, ?_, ?_, ?_⟩
          · rw [g0, g2]
            exact hl1
          · rw [g0, g1]
            exact hl2
          · rw [g1, g2]
            exact hl3
          · rw [g0, g1, g2]
            rw [subdivideTriStep_newIndices_len] at hblk
            have hoff : st.newIndices.length + 12 + 12 * k =
                st.newIndices.length + 12 * (k + 1) := by ring
            rw [hoff] at hblk
            exact hblk
  | case3 l st hnil hcons =>
      intro st' h t ht
      cases l with
      | nil => exact absurd rfl hnil
      | cons a t0 =>
        cases t0 with
        | nil => simp [subdivideGo] at h
        | cons b t2 =>
          cases t2 with
          | nil => simp [subdivideGo] at h
          | cons c t3 => exact absurd rfl (hcons a b c t3)

/-- Claim C2 (amended): HashCombine is order-independent, and injective
over unordered pairs of integers below 2^32 (the no-overflow regime, which
contains every valid C++ int vertex index; over all naturals the size_t
reduction modulo 2^64 admits collisions).  Consequently, in the state
produced by the Subdivide loop, the midpoint index recorded for an edge
does not depend on the order of its endpoints; every source triangle's
four children reference, for each edge, exactly the midpoint index the
final map records for that edge, so two source triangles sharing an
unordered edge reference the same single midpoint vertex index; and at
most one vertex is appended per unique unordered edge. -/
theorem c2_shared_edge_midpoints :
    (∀ v1 v2, HashCombine v1 v2 = HashCombine v2 v1) ∧
    (∀ v1 v2 w1 w2, v1 < 2 ^ 32 → v2 < 2 ^ 32 → w1 < 2 ^ 32 → w2 < 2 ^ 32 →
      HashCombine v1 v2 = HashCombine w1 w2 →
      min v1 v2 = min w1 w2 ∧ max v1 v2 = max w1 w2) ∧
    (∀ (m : Mesh) (st' : SubSt), subdivideState m = some st' →
      (∀ a b, edgeMid st' a b = edgeMid st' b a) ∧
      (∀ t, 3 * t + 2 < m.indices.length →
        ∃ mAC mAB mBC,
          edgeMid st' (m.indices.getD (3 * t) 0)
            (m.indices.getD (3 * t + 2) 0) = some mAC ∧
          edgeMid st' (m.indices.getD (3 * t) 0)
            (m.indices.getD (3 * t + 1) 0) = some mAB ∧
          edgeMid st' (m.indices.getD (3 * t + 1) 0)
            (m.indices.getD (3 * t + 2) 0) = some mBC ∧
          (st'.newIndices.drop (12 * t)).take 12 =
            [m.indices.getD (3 * t) 0, mAB, mAC, mAC, mAB, mBC, mAC, mBC,
             m.indices.getD (3 * t + 2) 0, mAB,
             m.indices.getD (3 * t + 1) 0, mBC]) ∧
      st'.vertices.length ≤
        m.vertices.length + (edgesOf m.indices).dedup.length) := by
  refine ⟨hashCombine_comm, hashCombine_inj, ?_⟩
  intro m st' hst
  have hgo : subdivideGo ⟨m.vertices, [], []⟩ m.indices = some st' := hst
  refine ⟨?_, ?_, ?_⟩
  · intro a b
    unfold edgeMid
    rw [hashCombine_comm]
  · intro t ht
    obtain ⟨mAC, mAB, mBC, l1, l2, l3, blk⟩ :=
      subdivideGo_block_char _ _ st' hgo t ht
    refine ⟨mAC, mAB, mBC, l1, l2, l3, ?_⟩
    have hoff : (SubSt.mk m.vertices [] []).newIndices.length + 12 * t =
        12 * t := by
      simp
    rw [hoff] at blk
    exact blk
  · obtain ⟨e, n, hk, _⟩ := subdivideGo_map_spec _ _ st' hgo
    have e2 : st'.vertices.length = m.vertices.length + st'.map.length := by
      simpa using e
    have hnodup : (st'.map.map Prod.fst).Nodup := n (by simp)
    have hsub : ∀ x ∈ st'.map.map Prod.fst,
        x ∈ (edgesOf m.indices).map (fun e => HashCombine e.1 e.2) := by
      intro x hx
      rw [List.mem_map] at hx
      obtain ⟨q, hq, rfl⟩ := hx
      rcases hk q hq with hmem | hmem
      · simp at hmem
      · exact hmem
    have hcard1 : (st'.map.map Prod.fst).length ≤
        ((edgesOf m.indices).map
          (fun e => HashCombine e.1 e.2)).dedup.length := by
      rw [← List.toFinset_card_of_nodup hnodup, ← List.card_toFinset]
      apply Finset.card_le_card
      intro x hx
      rw [List.mem_toFinset] at hx ⊢
      exact hsub x hx
    have hcard2 : ((edgesOf m.indices).map
        (fun e => HashCombine e.1 e.2)).dedup.length ≤
        (edgesOf m.indices).dedup.length := by
      rw [← List.card_toFinset, ← List.card_toFinset]
      have himg : ((edgesOf m.indices).map
          (fun e => HashCombine e.1 e.2)).toFinset =
          (edgesOf m.indices).toFinset.image
            (fun e => HashCombine e.1 e.2) := by
        ext x
        simp
      rw [himg]
      exact Finset.card_image_le
    have hmaplen : (st'.map.map Prod.fst).length = st'.map.length :=
      List.length_map _ _
    omega

/-- Claim C2 witness: instantiation of symmetry at (0, 2), of the bounded
injectivity at the pairs (0, 2) and (2, 0), and of the shared-midpoint
block characterization on the unit triangle mesh. -/
theorem c2_witness :
    ((0 : ℕ) < 2 ^ 32 ∧ (2 : ℕ) < 2 ^ 32 ∧
      HashCombine 0 2 = HashCombine 2 0) ∧
    (min 0 2 = min 2 0 ∧ max 0 2 = max 2 0) ∧
    ((∀ a b, edgeMid (SubSt.mk
        [⟨⟨0, 0, 0⟩, 0⟩, ⟨⟨1, 0, 0⟩, 0⟩, ⟨⟨0, 1, 0⟩, 0⟩,
         ⟨⟨0, 1 / 2, 0⟩, 0⟩, ⟨⟨1 / 2, 0, 0⟩, 0⟩, ⟨⟨1 / 2, 1 / 2, 0⟩, 0⟩]
        [(7, 5), (2, 4), (6, 3)]
        [0, 4, 3, 3, 4, 5, 3, 5, 2, 4, 1, 5]) a b =
      edgeMid (SubSt.mk
        [⟨⟨0, 0, 0⟩, 0⟩, ⟨⟨1, 0, 0⟩, 0⟩, ⟨⟨0, 1, 0⟩, 0⟩,
         ⟨⟨0, 1 / 2, 0⟩, 0⟩, ⟨⟨1 / 2, 0, 0⟩, 0⟩, ⟨⟨1 / 2, 1 / 2, 0⟩, 0⟩]
        [(7, 5), (2, 4), (6, 3)]
        [0, 4, 3, 3, 4, 5, 3, 5, 2, 4, 1, 5]) b a) ∧
      (SubSt.mk
        [⟨⟨0, 0, 0⟩, 0⟩, ⟨⟨1, 0, 0⟩, 0⟩, ⟨⟨0, 1, 0⟩, 0⟩,
         ⟨⟨0, 1 / 2, 0⟩, 0⟩, ⟨⟨1 / 2, 0, 0⟩, 0⟩, ⟨⟨1 / 2, 1 / 2, 0⟩, 0⟩]
        [(7, 5), (2, 4), (6, 3)]
        [0, 4, 3, 3, 4, 5, 3, 5, 2, 4, 1, 5]).vertices.length ≤
        3 + (edgesOf [0, 1, 2]).dedup.length) := by
  have hst : subdivideState
      (Mesh.mk
        [⟨⟨0, 0, 0⟩, ⟨0, 0, 0⟩⟩, ⟨⟨1, 0, 0⟩, ⟨0, 0, 0⟩⟩,
         ⟨⟨0, 1, 0⟩, ⟨0, 0, 0⟩⟩]
        [0, 1, 2]) = some (SubSt.mk
        [⟨⟨0, 0, 0⟩, 0⟩, ⟨⟨1, 0, 0⟩, 0⟩, ⟨⟨0, 1, 0⟩, 0⟩,
         ⟨⟨0, 1 / 2, 0⟩, 0⟩, ⟨⟨1 / 2, 0, 0⟩, 0⟩, ⟨⟨1 / 2, 1 / 2, 0⟩, 0⟩]
        [(7, 5), (2, 4), (6, 3)]
        [0, 4, 3, 3, 4, 5, 3, 5, 2, 4, 1, 5]) := by
    with_unfolding_all rfl
  have hmain := c2_shared_edge_midpoints
  refine ⟨⟨by decide, by decide, hmain.1 0 2⟩, ?_, ?_, ?_⟩
  · exact hmain.2.1 0 2 2 0 (by decide) (by decide) (by decide) (by decide)
      (hmain.1 0 2)
  · exact (hmain.2.2 _ _ hst).1
  · exact (hmain.2.2 _ _ hst).2.2

/-- Two statistics records with equal fields are equal. -/
@[ext] theorem TriangleStatistics.ext_fields (s1 s2 : TriangleStatistics)
    (h1 : s1.minArea = s2.minArea) (h2 : s1.maxArea = s2.maxArea)
    (h3 : s1.avgArea = s2.avgArea) : s1 = s2 := by
  cases s1
  cases s2
  simp only at h1 h2 h3
  rw [h1, h2, h3]

/-- A zero area is excluded from the running minimum but still passes
through the maximum comparison and the average accumulation. -/
theorem statStep_zero_area (T : ℕ) (s : TriangleStatistics) :
    (statStep T s 0).minArea = s.minArea ∧
    (statStep T s 0).maxArea = max s.maxArea 0 ∧
    (statStep T s 0).avgArea = s.avgArea + 0 / (T : ℝ) := by
  unfold statStep
  refine ⟨?_, ?_, rfl⟩
  · simp
  · rcases lt_or_le s.maxArea 0 with h | h
    · simp only [if_pos h]
      exact (max_eq_right (le_of_lt h)).symm
    · simp only [if_neg (not_lt.mpr h)]
      exact (max_eq_left h).symm

/-- A nonzero smaller area replaces the running minimum; areas equal to the
current minimum leave it unchanged. -/
theorem statStep_min_cases (T : ℕ) (s : TriangleStatistics) (a : ℝ)
    (ha : 0 < a) (hs : s.minArea = FLT_MAX ∨ s.minArea = a)
    (haF : a < FLT_MAX) :
    (statStep T s a).minArea = a := by
  unfold statStep
  rcases hs with h | h
  · rw [if_pos]
    exact ⟨by rw [h]; exact haF, ne_of_gt ha⟩
  · rw [if_neg, h]
    rw [h]
    simp

/-- The per-batch loop on areas that are all zero or all equal to a fixed
nonzero value a: it succeeds, the resulting minimum is the sentinel or a,
and it is a exactly when area a occurs in the batch (or already in the
accumulator). -/
theorem statsBatchGo_min (vs : List Vertex) (is : List ℕ) (T : ℕ) (a : ℝ)
    (ha : 0 < a) (haF : a < FLT_MAX) (f : ℕ → ℝ) :
    ∀ (n j0 : ℕ) (s : TriangleStatistics),
      (∀ k, k < n → areaAt? vs is (3 * (j0 + k)) = some (f (j0 + k))) →
      (∀ k, k < n → f (j0 + k) = 0 ∨ f (j0 + k) = a) →
      (s.minArea = FLT_MAX ∨ s.minArea = a) →
      ∃ s', statsBatchGo vs is T n (3 * j0) s = some s' ∧
        (s'.minArea = FLT_MAX ∨ s'.minArea = a) ∧
        (s'.minArea = a ↔ (s.minArea = a ∨ ∃ k, k < n ∧ f (j0 + k) = a)) := by
  intro n
  induction n with
  | zero =>
      intro j0 s _ _ hs
      refine ⟨s, by rw [statsBatchGo], hs, ?_⟩
      constructor
      · intro h
        exact Or.inl h
      · rintro (h | ⟨k, hk, _⟩)
        · exact h
        · omega
  | succ n ih =>
      intro j0 s hf hfa hs
      have hf0 : areaAt? vs is (3 * j0) = some (f j0) := by
        have := hf 0 (by omega)
        simpa using this
      have hstep : statsBatchGo vs is T (n + 1) (3 * j0) s =
          statsBatchGo vs is T n (3 * j0 + 3) (statStep T s (f j0)) := by
        rw [statsBatchGo, hf0]
        rfl
      have hidx : 3 * j0 + 3 = 3 * (j0 + 1) := by ring
      rcases hfa 0 (by omega) with h0 | h0
      · -- the first area is zero: the minimum is untouched
        simp only [Nat.add_zero] at h0
        have hmin1 : (statStep T s (f j0)).minArea = s.minArea := by
          rw [h0]
          exact (statStep_zero_area T s).1
        obtain ⟨s', hs', hinv, hiff⟩ := ih (j0 + 1) (statStep T s (f j0))
          (fun k hk => by
            have := hf (k + 1) (by omega)
            have e : j0 + (k + 1) = j0 + 1 + k := by omega
            rw [e] at this
            exact this)
          (fun k hk => by
            have := hfa (k + 1) (by omega)
            have e : j0 + (k + 1) = j0 + 1 + k := by omega
            rw [e] at this
            exact this)
          (by rw [hmin1]; exact hs)
        refine ⟨s', by rw [hstep, hidx]; exact hs', hinv, ?_⟩
        rw [hiff, hmin1]
        constructor
        · rintro (h | ⟨k, hk, hfk⟩)
          · exact Or.inl h
          · exact Or.inr ⟨k + 1, by omega, by
              have e : j0 + (k + 1) = j0 + 1 + k := by omega
              rw [e]
              exact hfk⟩
        · rintro (h | ⟨k, hk, hfk⟩)
          · exact Or.inl h
          · cases k with
            | zero =>
                exfalso
                simp only [Nat.add_zero] at hfk
                rw [h0] at hfk
                exact absurd hfk.symm (ne_of_gt ha)
            | succ k2 =>
                refine Or.inr ⟨k2, by omega, ?_⟩
                have e : j0 + 1 + k2 = j0 + (k2 + 1) := by omega
                rw [e]
                exact hfk
      · -- the first area is a: the minimum becomes a and stays a
        simp only [Nat.add_zero] at h0
        have hmin1 : (statStep T s (f j0)).minArea = a := by
          rw [h0]
          exact statStep_min_cases T s a ha hs haF
        obtain ⟨s', hs', hinv, hiff⟩ := ih (j0 + 1) (statStep T s (f j0))
          (fun k hk => by
            have := hf (k + 1) (by omega)
            have e : j0 + (k + 1) = j0 + 1 + k := by omega
            rw [e] at this
            exact this)
          (fun k hk => by
            have := hfa (k + 1) (by omega)
            have e : j0 + (k + 1) = j0 + 1 + k := by omega
            rw [e] at this
            exact this)
          (Or.inr hmin1)
        refine ⟨s', by rw [hstep, hidx]; exact hs', hinv, ?_⟩
        have : s'.minArea = a := hiff.mpr (Or.inl hmin1)
        rw [this]
        constructor
        · intro _
          exact Or.inr ⟨0, by omega, by simpa using h0⟩
        · intro _
          rfl

/-- Telescoping of consecutive batch boundaries. -/
theorem batch_telescope (T W k : ℕ) :
    k * T / W + batchSize T W k = (k + 1) * T / W := by
  have h2 := batchStart_eq T W (k + 1)
  rw [batchStart, batchStart_eq T W k] at h2
  omega

/-- The batch list on areas all zero-or-a: every batch result has minimum
sentinel or a, and some batch has minimum a exactly when the area a occurs
in a not-yet-processed triangle. -/
theorem batchStatsList_min (vs : List Vertex) (is : List ℕ) (T W : ℕ)
    (hW : 0 < W) (a : ℝ) (ha : 0 < a) (haF : a < FLT_MAX) (f : ℕ → ℝ)
    (hf : ∀ j, j < T → areaAt? vs is (3 * j) = some (f j))
    (hfa : ∀ j, j < T → f j = 0 ∨ f j = a) :
    ∀ (n k : ℕ), k + n = W →
      ∃ L, batchStatsList vs is T W k (k * T / W) n = some L ∧
        (∀ s ∈ L, s.minArea = FLT_MAX ∨ s.minArea = a) ∧
        ((∃ s ∈ L, s.minArea = a) ↔
          ∃ j, k * T / W ≤ j ∧ j < T ∧ f j = a) := by
  intro n
  induction n with
  | zero =>
      intro k hk
      refine ⟨[], by rw [batchStatsList], by simp, ?_⟩
      simp only [List.not_mem_nil, false_and, exists_false, false_iff,
        not_exists, not_and]
      intro j hj hjT
      intro hfj
      have hkW : k = W := by omega
      rw [hkW, Nat.mul_div_cancel_left T hW] at hj
      omega
  | succ n ih =>
      intro k hk
      have hk1 : k + 1 ≤ W := by omega
      have hend : (k + 1) * T / W ≤ T := by
        have : (k + 1) * T / W ≤ W * T / W :=
          Nat.div_le_div_right (Nat.mul_le_mul_right T hk1)
        rwa [Nat.mul_div_cancel_left T hW] at this
      have htel := batch_telescope T W k
      obtain ⟨s1, hbatch, hinv1, hiff1⟩ := statsBatchGo_min vs is T a ha haF
        f (batchSize T W k) (k * T / W) TriangleStatistics.init
        (fun kk hkk => hf (k * T / W + kk) (by omega))
        (fun kk hkk => hfa (k * T / W + kk) (by omega))
        (Or.inl rfl)
      obtain ⟨L, hL, hinv, hiff⟩ := ih (k + 1) (by omega)
      rw [← htel] at hL
      refine ⟨s1 :: L, ?_, ?_, ?_⟩
      · rw [batchStatsList]
        have hcomm : k * T / W * 3 = 3 * (k * T / W) := by ring
        rw [hcomm, hbatch]
        rw [hL]
        rfl
      · intro s hs
        rcases List.mem_cons.mp hs with rfl | hs2
        · exact hinv1
        · exact hinv s hs2
      · have hinitne : ¬ (TriangleStatistics.init.minArea = a) := by
          intro h
          unfold TriangleStatistics.init at h
          simp only at h
          rw [← h] at haF
          unfold FLT_MAX at haF
          linarith
        constructor
        · intro hex
          obtain ⟨s, hs, hsa⟩ := hex
          rcases List.mem_cons.mp hs with rfl | hs2
          · rcases hiff1.mp hsa with hbad | ⟨kk, hkk, hfkk⟩
            · exact absurd hbad hinitne
            · exact ⟨k * T / W + kk, by omega, by omega, hfkk⟩
          · obtain ⟨j, hj1, hj2, hj3⟩ := hiff.mp ⟨s, hs2, hsa⟩
            exact ⟨j, by omega, hj2, hj3⟩
        · rintro ⟨j, hj1, hj2, hj3⟩
          rcases Nat.lt_or_ge j ((k + 1) * T / W) with hjlt | hjge
          · refine ⟨s1, List.mem_cons_self _ _, ?_⟩
            refine hiff1.mpr (Or.inr ⟨j - k * T / W, by omega, ?_⟩)
            have e : k * T / W + (j - k * T / W) = j := by omega
            rw [e]
            exact hj3
          · obtain ⟨s, hs2, hsa⟩ := hiff.mpr ⟨j, hjge, hj2, hj3⟩
            exact ⟨s, List.mem_cons_of_mem _ hs2, hsa⟩

/-- Case analysis of the combine step on minima that are sentinel or a. -/
theorem combineStats_min_cases (acc s : TriangleStatistics) (a : ℝ)
    (haF : a < FLT_MAX)
    (hacc : acc.minArea = FLT_MAX ∨ acc.minArea = a)
    (hs : s.minArea = FLT_MAX ∨ s.minArea = a) :
    ((combineStats acc s).minArea = FLT_MAX ∨
      (combineStats acc s).minArea = a) ∧
    ((combineStats acc s).minArea = a ↔
      (acc.minArea = a ∨ s.minArea = a)) := by
  have hne : FLT_MAX ≠ a := (ne_of_lt haF).symm
  have hnot : ¬ (a > FLT_MAX) := not_lt.mpr (le_of_lt haF)
  unfold combineStats
  simp only
  rcases hacc with h1 | h1 <;> rcases hs with h2 | h2 <;> rw [h1, h2]
  · simp [lt_self_iff_false, hne]
  · simp [gt_iff_lt, haF, hne]
  · simp [hnot]
  · simp [lt_self_iff_false]

/-- Folding the combine step over batch results whose minima are sentinel
or a yields minimum a exactly when some batch (or the accumulator) has
minimum a. -/
theorem foldl_combine_min (a : ℝ) (haF : a < FLT_MAX) :
    ∀ (L : List TriangleStatistics) (acc : TriangleStatistics),
      (acc.minArea = FLT_MAX ∨ acc.minArea = a) →
      (∀ s ∈ L, s.minArea = FLT_MAX ∨ s.minArea = a) →
      ((L.foldl combineStats acc).minArea = FLT_MAX ∨
        (L.foldl combineStats acc).minArea = a) ∧
      ((L.foldl combineStats acc).minArea = a ↔
        (acc.minArea = a ∨ ∃ s ∈ L, s.minArea = a)) := by
  intro L
  induction L with
  | nil =>
      intro acc hacc _
      refine ⟨hacc, ?_⟩
      simp only [List.foldl_nil, List.not_mem_nil, false_and, exists_false,
        or_false]
  | cons s L ih =>
      intro acc hacc hL
      have hs := hL s (List.mem_cons_self _ _)
      obtain ⟨hc1, hc2⟩ := combineStats_min_cases acc s a haF hacc hs
      obtain ⟨hf1, hf2⟩ := ih (combineStats acc s) hc1
        (fun q hq => hL q (List.mem_cons_of_mem _ hq))
      refine ⟨hf1, ?_⟩
      rw [List.foldl_cons, hf2, hc2]
      constructor
      · rintro ((h | h) | ⟨q, hq, hqa⟩)
        · exact Or.inl h
        · exact Or.inr ⟨s, List.mem_cons_self _ _, h⟩
        · exact Or.inr ⟨q, List.mem_cons_of_mem _ hq, hqa⟩
      · rintro (h | ⟨q, hq, hqa⟩)
        · exact Or.inl (Or.inl h)
        · rcases List.mem_cons.mp hq with rfl | hq2
          · exact Or.inl (Or.inr hqa)
          · exact Or.inr ⟨q, hq2, hqa⟩

/-- Evaluation rule for CalculateStatistics from a batch list result. -/
theorem calculateStatistics_eq (m : Mesh) (hw : ℕ)
    (L : List TriangleStatistics)
    (hL : batchStatsList m.vertices m.indices (m.indices.length / 3)
      (if hw > m.indices.length / 3 then m.indices.length / 3 else hw) 0 0
      (if hw > m.indices.length / 3 then m.indices.length / 3 else hw) =
      some L) :
    CalculateStatistics m hw =
      some (L.foldl combineStats TriangleStatistics.init, true) := by
  rw [CalculateStatistics]
  rw [hL]
  rfl

/-- Claim C4: in the per-batch statistics loop a zero area is excluded from
the running minimum (but not from the maximum comparison or the average
accumulation), hence on a mesh with one zero-area triangle among triangles
of equal nonzero area a, the computed minArea equals a, the smallest
nonzero area, and not zero. -/
theorem c4_zero_area_excluded_from_min (m : Mesh) (hw : ℕ) (a : ℝ)
    (f : ℕ → ℝ) (j0 : ℕ)
    (hhw : 1 ≤ hw) (hT : 2 ≤ m.indices.length / 3)
    (ha : 0 < a) (haF : a < FLT_MAX)
    (hf : ∀ j, j < m.indices.length / 3 →
      areaAt? m.vertices m.indices (3 * j) = some (f j))
    (hj0 : j0 < m.indices.length / 3) (hj0z : f j0 = 0)
    (hrest : ∀ j, j < m.indices.length / 3 → j ≠ j0 → f j = a) :
    (∀ (T : ℕ) (s : TriangleStatistics),
      (statStep T s 0).minArea = s.minArea ∧
      (statStep T s 0).maxArea = max s.maxArea 0 ∧
      (statStep T s 0).avgArea = s.avgArea + 0 / (T : ℝ)) ∧
    ∃ stats, CalculateStatistics m hw = some (stats, true) ∧
      stats.minArea = a ∧ stats.minArea ≠ 0 := by
  refine ⟨fun T s => statStep_zero_area T s, ?_⟩
  have hWpos : 0 < (if hw > m.indices.length / 3
      then m.indices.length / 3 else hw) := by
    split_ifs <;> omega
  have hfa : ∀ j, j < m.indices.length / 3 → f j = 0 ∨ f j = a := by
    intro j hj
    rcases eq_or_ne j j0 with rfl | hne
    · exact Or.inl hj0z
    · exact Or.inr (hrest j hj hne)
  obtain ⟨L, hL, hinv, hiff⟩ := batchStatsList_min m.vertices m.indices
    (m.indices.length / 3)
    (if hw > m.indices.length / 3 then m.indices.length / 3 else hw)
    hWpos a ha haF f hf hfa
    (if hw > m.indices.length / 3 then m.indices.length / 3 else hw) 0
    (by omega)
  have h00 : 0 * (m.indices.length / 3) /
      (if hw > m.indices.length / 3 then m.indices.length / 3 else hw) =
      0 := by
    simp
  rw [h00] at hL hiff
  have hja : ∃ j, 0 ≤ j ∧ j < m.indices.length / 3 ∧ f j = a := by
    rcases eq_or_ne j0 0 with rfl | hne
    · exact ⟨1, by omega, by omega, hrest 1 (by omega) (by omega)⟩
    · exact ⟨0, by omega, by omega, hrest 0 (by omega)
        (fun h => hne h.symm)⟩
  have hexist : ∃ s ∈ L, s.minArea = a := hiff.mpr hja
  obtain ⟨hc1, hc2⟩ := foldl_combine_min a haF L TriangleStatistics.init
    (Or.inl rfl) hinv
  have hmin : (L.foldl combineStats TriangleStatistics.init).minArea = a :=
    hc2.mpr (Or.inr hexist)
  exact ⟨L.foldl combineStats TriangleStatistics.init,
    calculateStatistics_eq m hw L hL, hmin,
    by rw [hmin]; exact ne_of_gt ha⟩

/-- Claim C4 witness: the mesh with one unit right triangle (area 1/2),
its reversed-duplicate-free sibling replaced by a degenerate triangle
(0, 0, 1) of area zero, computed with one worker: minArea is 1/2, not 0. -/
theorem c4_witness :
    ((0 : ℝ) < 1 / 2 ∧ (1 / 2 : ℝ) < FLT_MAX) ∧
    (∃ stats, CalculateStatistics
      (Mesh.mk
        [⟨⟨0, 0, 0⟩, 0⟩, ⟨⟨1, 0, 0⟩, 0⟩, ⟨⟨0, 1, 0⟩, 0⟩]
        [0, 1, 2, 0, 0, 1]) 1 = some (stats, true) ∧
      stats.minArea = 1 / 2 ∧ stats.minArea ≠ 0) := by
  have haF : (1 / 2 : ℝ) < FLT_MAX := by
    unfold FLT_MAX
    norm_num
  have ht0 : Triangle.GetTriangle?
      [(⟨⟨0, 0, 0⟩, 0⟩ : Vertex), ⟨⟨1, 0, 0⟩, 0⟩, ⟨⟨0, 1, 0⟩, 0⟩]
      [0, 1, 2, 0, 0, 1] 0 =
      some ⟨⟨⟨0, 0, 0⟩, 0⟩, ⟨⟨1, 0, 0⟩, 0⟩, ⟨⟨0, 1, 0⟩, 0⟩⟩ := by
    with_unfolding_all rfl
  have ht1 : Triangle.GetTriangle?
      [(⟨⟨0, 0, 0⟩, 0⟩ : Vertex), ⟨⟨1, 0, 0⟩, 0⟩, ⟨⟨0, 1, 0⟩, 0⟩]
      [0, 1, 2, 0, 0, 1] 3 =
      some ⟨⟨⟨0, 0, 0⟩, 0⟩, ⟨⟨0, 0, 0⟩, 0⟩, ⟨⟨1, 0, 0⟩, 0⟩⟩ := by
    with_unfolding_all rfl
  have hd0 : (dot
      (Triangle.GetNormal ⟨⟨⟨0, 0, 0⟩, 0⟩, ⟨⟨1, 0, 0⟩, 0⟩, ⟨⟨0, 1, 0⟩, 0⟩⟩)
      (Triangle.GetNormal ⟨⟨⟨0, 0, 0⟩, 0⟩, ⟨⟨1, 0, 0⟩, 0⟩, ⟨⟨0, 1, 0⟩, 0⟩⟩)
      : ℚ) = 1 := by
    with_unfolding_all rfl
  have hd1 : (dot
      (Triangle.GetNormal ⟨⟨⟨0, 0, 0⟩, 0⟩, ⟨⟨0, 0, 0⟩, 0⟩, ⟨⟨1, 0, 0⟩, 0⟩⟩)
      (Triangle.GetNormal ⟨⟨⟨0, 0, 0⟩, 0⟩, ⟨⟨0, 0, 0⟩, 0⟩, ⟨⟨1, 0, 0⟩, 0⟩⟩)
      : ℚ) = 0 := by
    with_unfolding_all rfl
  have hf : ∀ j, j < ([0, 1, 2, 0, 0, 1] : List ℕ).length / 3 →
      areaAt? [(⟨⟨0, 0, 0⟩, 0⟩ : Vertex), ⟨⟨1, 0, 0⟩, 0⟩, ⟨⟨0, 1, 0⟩, 0⟩]
        [0, 1, 2, 0, 0, 1] (3 * j) =
      some (if j = 0 then (1 / 2 : ℝ) else 0) := by
    intro j hj
    simp only [List.length_cons, List.length_nil] at hj
    interval_cases j
    · rw [areaAt?]
      show Option.map _ (Triangle.GetTriangle? _ _ 0) = _
      rw [ht0, Option.map_some']
      rw [Option.some_inj]
      rw [hd0]
      simp [Real.sqrt_one]
    · rw [areaAt?]
      show Option.map _ (Triangle.GetTriangle? _ _ 3) = _
      rw [ht1, Option.map_some']
      rw [Option.some_inj]
      rw [hd1]
      simp
  have hmain := c4_zero_area_excluded_from_min
    (Mesh.mk
      [⟨⟨0, 0, 0⟩, 0⟩, ⟨⟨1, 0, 0⟩, 0⟩, ⟨⟨0, 1, 0⟩, 0⟩]
      [0, 1, 2, 0, 0, 1]) 1 (1 / 2)
    (fun j => if j = 0 then (1 / 2 : ℝ) else 0) 1
    (by omega) (by norm_num) (by norm_num) haF hf (by norm_num)
    (by norm_num)
    (by
      intro j hj hne
      simp only [List.length_cons, List.length_nil] at hj
      interval_cases j
      · norm_num
      · exact absurd rfl hne)
  exact ⟨⟨by norm_num, haF⟩, hmain.2⟩

/-- A zero area leaves the whole statistics record unchanged when the
running maximum is nonnegative. -/
theorem statStep_zero_fix (T : ℕ) (s : TriangleStatistics)
    (hmax : 0 ≤ s.maxArea) : statStep T s 0 = s := by
  have h1 : ¬ (s.maxArea < 0) := not_lt.mpr hmax
  unfold statStep
  apply TriangleStatistics.ext_fields <;> simp [h1]

/-- A batch of all-zero areas returns its accumulator unchanged. -/
theorem statsBatchGo_zeros (vs : List Vertex) (is : List ℕ) (T : ℕ) :
    ∀ (n j0 : ℕ) (s : TriangleStatistics),
      (∀ k, k < n → areaAt? vs is (3 * (j0 + k)) = some 0) →
      0 ≤ s.maxArea →
      statsBatchGo vs is T n (3 * j0) s = some s := by
  intro n
  induction n with
  | zero =>
      intro j0 s _ _
      rw [statsBatchGo]
  | succ n ih =>
      intro j0 s hf hmax
      have hf0 : areaAt? vs is (3 * j0) = some 0 := by
        have := hf 0 (by omega)
        simpa using this
      have hstep : statsBatchGo vs is T (n + 1) (3 * j0) s =
          statsBatchGo vs is T n (3 * j0 + 3) (statStep T s 0) := by
        rw [statsBatchGo, hf0]
        rfl
      rw [hstep, statStep_zero_fix T s hmax]
      have hidx : 3 * j0 + 3 = 3 * (j0 + 1) := by ring
      rw [hidx]
      exact ih (j0 + 1) s
        (fun k hk => by
          have := hf (k + 1) (by omega)
          have e : j0 + (k + 1) = j0 + 1 + k := by omega
          rw [e] at this
          exact this)
        hmax

/-- On all-zero areas every batch result is the initial sentinel record. -/
theorem batchStatsList_zeros (vs : List Vertex) (is : List ℕ) (T W : ℕ)
    (hf : ∀ j, j < T → areaAt? vs is (3 * j) = some 0) :
    ∀ (n k : ℕ), k + n = W →
      ∃ L, batchStatsList vs is T W k (k * T / W) n = some L ∧
        ∀ s ∈ L, s = TriangleStatistics.init := by
  intro n
  induction n with
  | zero =>
      intro k hk
      exact ⟨[], by rw [batchStatsList], by simp⟩
  | succ n ih =>
      intro k hk
      have hW : 0 < W := by omega
      have hk1 : k + 1 ≤ W := by omega
      have hend : (k + 1) * T / W ≤ T := by
        have : (k + 1) * T / W ≤ W * T / W :=
          Nat.div_le_div_right (Nat.mul_le_mul_right T hk1)
        rwa [Nat.mul_div_cancel_left T hW] at this
      have htel := batch_telescope T W k
      have hbatch := statsBatchGo_zeros vs is T (batchSize T W k)
        (k * T / W) TriangleStatistics.init
        (fun kk hkk => hf (k * T / W + kk) (by omega))
        (by unfold TriangleStatistics.init; simp)
      obtain ⟨L, hL, hinit⟩ := ih (k + 1) (by omega)
      rw [← htel] at hL
      refine ⟨TriangleStatistics.init :: L, ?_, ?_⟩
      · rw [batchStatsList]
        have hcomm : k * T / W * 3 = 3 * (k * T / W) := by ring
        rw [hcomm, hbatch, hL]
        rfl
      · intro s hs
        rcases List.mem_cons.mp hs with rfl | hs2
        · rfl
        · exact hinit s hs2

/-- Combining initial records yields the initial record. -/
theorem combineStats_init_init :
    combineStats TriangleStatistics.init TriangleStatistics.init =
      TriangleStatistics.init := by
  unfold combineStats TriangleStatistics.init
  apply TriangleStatistics.ext_fields <;> simp

/-- Folding the combine step over initial records yields the initial
record. -/
theorem foldl_combine_inits :
    ∀ L : List TriangleStatistics,
      (∀ s ∈ L, s = TriangleStatistics.init) →
      L.foldl combineStats TriangleStatistics.init =
        TriangleStatistics.init := by
  intro L
  induction L with
  | nil => intro _; rfl
  | cons s L ih =>
      intro h
      have hs : s = TriangleStatistics.init := h s (List.mem_cons_self _ _)
      subst hs
      rw [List.foldl_cons, combineStats_init_init]
      exact ih (fun q hq => h q (List.mem_cons_of_mem _ hq))

/-- Claim C10: on a mesh with no triangles, or one in which every triangle
has exactly zero area, CalculateStatistics delivers minArea = FLT_MAX (the
never-updated sentinel), maxArea = 0 and avgArea = 0, and the done flag is
still set to true. -/
theorem c10_sentinel_statistics (m : Mesh) (hw : ℕ)
    (hzero : ∀ j, j < m.indices.length / 3 →
      areaAt? m.vertices m.indices (3 * j) = some 0) :
    CalculateStatistics m hw = some (⟨FLT_MAX, 0, 0⟩, true) := by
  obtain ⟨L, hL, hinit⟩ := batchStatsList_zeros m.vertices m.indices
    (m.indices.length / 3)
    (if hw > m.indices.length / 3 then m.indices.length / 3 else hw)
    (fun j hj => hzero j hj)
    (if hw > m.indices.length / 3 then m.indices.length / 3 else hw) 0
    (by omega)
  have h00 : 0 * (m.indices.length / 3) /
      (if hw > m.indices.length / 3 then m.indices.length / 3 else hw) =
      0 := by
    simp
  rw [h00] at hL
  have heq := calculateStatistics_eq m hw L hL
  rw [foldl_combine_inits L hinit] at heq
  exact heq

/-- Claim C10 witness: the empty mesh with 4 hardware threads. -/
theorem c10_witness :
    CalculateStatistics (Mesh.mk [] []) 4 =
      some (⟨FLT_MAX, 0, 0⟩, true) :=
  c10_sentinel_statistics (Mesh.mk [] []) 4
    (fun j hj => absurd hj (by simp))

/-- Claim C8 evaluation: on a mesh whose index sequence contains the value
5 with only one vertex (and on one whose index count is not a multiple of
3), each of Subdivide, IsPointInside and CalculateStatistics reaches the
unchecked vertex access (surfaced as `none` in the embedding) without any
prior topology validation: the C++ code has no invalid-topology error path
at all, it reads out of bounds. -/
theorem c8_unchecked_out_of_bounds :
    Subdivide (Mesh.mk [⟨⟨0, 0, 0⟩, 0⟩] [0, 0, 5]) = none ∧
    IsPointInside (Mesh.mk [⟨⟨0, 0, 0⟩, 0⟩] [0, 0, 5]) ⟨0, 0, 0⟩ = none ∧
    CalculateStatistics (Mesh.mk [⟨⟨0, 0, 0⟩, 0⟩] [0, 0, 5]) 1 = none ∧
    Subdivide (Mesh.mk [⟨⟨0, 0, 0⟩, 0⟩] [0]) = none := by
  refine ⟨by with_unfolding_all rfl, by with_unfolding_all rfl, ?_,
    by with_unfolding_all rfl⟩
  have hA : areaAt? [(⟨⟨0, 0, 0⟩, 0⟩ : Vertex)] [0, 0, 5] 0 = none := by
    rw [areaAt?]
    have hT : Triangle.GetTriangle? [(⟨⟨0, 0, 0⟩, 0⟩ : Vertex)]
        [0, 0, 5] 0 = none := by
      with_unfolding_all rfl
    rw [hT]
    rfl
  have hB : statsBatchGo [(⟨⟨0, 0, 0⟩, 0⟩ : Vertex)] [0, 0, 5] 1 1 0
      TriangleStatistics.init = none := by
    rw [statsBatchGo, hA]
    rfl
  have hB2 : statsBatchGo [(⟨⟨0, 0, 0⟩, 0⟩ : Vertex)] [0, 0, 5] 1
      (batchSize 1 1 0) (0 * 3) TriangleStatistics.init = none := hB
  have hBS : batchStatsList [(⟨⟨0, 0, 0⟩, 0⟩ : Vertex)] [0, 0, 5] 1 1 0 0 1
      = none := by
    rw [batchStatsList, hB2]
    rfl
  have hBS2 : batchStatsList [(⟨⟨0, 0, 0⟩, 0⟩ : Vertex)] [0, 0, 5]
      ((Mesh.mk [(⟨⟨0, 0, 0⟩, 0⟩ : Vertex)] [0, 0, 5]).indices.length / 3)
      (if 1 > (Mesh.mk [(⟨⟨0, 0, 0⟩, 0⟩ : Vertex)]
        [0, 0, 5]).indices.length / 3
       then (Mesh.mk [(⟨⟨0, 0, 0⟩, 0⟩ : Vertex)]
        [0, 0, 5]).indices.length / 3 else 1) 0 0
      (if 1 > (Mesh.mk [(⟨⟨0, 0, 0⟩, 0⟩ : Vertex)]
        [0, 0, 5]).indices.length / 3
       then (Mesh.mk [(⟨⟨0, 0, 0⟩, 0⟩ : Vertex)]
        [0, 0, 5]).indices.length / 3 else 1) = none := hBS
  rw [CalculateStatistics, hBS2]
  rfl

end Viewer
